import Mathlib

/-!
Verification of the bookmark-manager persistence and normalization layer.

The Python sources under `bookmark_manager/` are shallowly embedded:
strings are lists of characters (`PyStr`), the SQLite store is an explicit
`Store` value, every service/repository operation is a pure function, and
exceptions are `Except` values.  The relevant behaviour of CPython's
`urllib.parse.urlparse`/`urlunparse` (the parts reachable from
`_normalize_url`) is embedded as well.

The SQL schema file `schemas/database.sql` is referenced by the sources but
is not part of the source tree; schema-level behaviour (the UNIQUE
constraint on `bookmarks.url`, the `created_at`/`updated_at` defaults and
refresh, and the cascade delete of `bookmark_tags` rows) is modelled from
the specification and marked as such on the definitions below.
-/

deriving instance DecidableEq for Except

/-- Python strings are modelled as lists of characters. -/
abbrev PyStr := List Char

/-- Python `str.strip()` whitespace set (ASCII part; the embedding models
ASCII text). -/
def isPySpace (c : Char) : Bool :=
  c = ' ' || c = '\t' || c = '\n' || c = '\r' || c = '\x0b' || c = '\x0c'

/-- Python `str.strip()`: drop leading and trailing whitespace. -/
def pyStrip (s : PyStr) : PyStr :=
  ((s.dropWhile isPySpace).reverse.dropWhile isPySpace).reverse

/-- ASCII lowercase of one character, as Python `str.lower()` acts on
ASCII input (codepoints 65-90 map to 97-122). -/
def pyLowerChar (c : Char) : Char :=
  if 65 ≤ c.toNat ∧ c.toNat ≤ 90 then Char.ofNat (c.toNat + 32) else c

/-- Python `str.lower()` on ASCII text. -/
def pyLower (s : PyStr) : PyStr := s.map pyLowerChar

/-- ASCII letter test (`[a-zA-Z]`, also CPython's `isascii() and isalpha()`
combination used for the URL scheme). -/
def isAsciiAlpha (c : Char) : Bool :=
  (97 ≤ c.toNat ∧ c.toNat ≤ 122) || (65 ≤ c.toNat ∧ c.toNat ≤ 90)

/-- Characters allowed in a URL scheme: `[a-zA-Z0-9+.-]`, matching both the
service's regex and CPython's `scheme_chars`. -/
def isSchemeChar (c : Char) : Bool :=
  isAsciiAlpha c || (48 ≤ c.toNat ∧ c.toNat ≤ 57) || c = '+' || c = '-' || c = '.'

/-- Helper for the service's scheme regex: after the leading letter, scan
scheme characters until the literal `://`. -/
def schemeMarkAux : PyStr → Bool
  | ':' :: '/' :: '/' :: _ => true
  | c :: rest => if isSchemeChar c then schemeMarkAux rest else false
  | [] => false

/-- The service regex `^[a-zA-Z][a-zA-Z0-9+\-.]*://` from
`BookmarkService._normalize_url` (since `:` and `/` are outside the starred
class, the regex match is equivalent to this linear scan). -/
def matchesSchemeRe : PyStr → Bool
  | [] => false
  | c :: rest => isSchemeChar c && isAsciiAlpha c && schemeMarkAux rest

/-- CPython `urlsplit` removes tab, carriage return and newline anywhere in
the URL before parsing. -/
def removeUnsafe (s : PyStr) : PyStr :=
  s.filter (fun c => ¬(c = '\t' ∨ c = '\r' ∨ c = '\n'))

/-- CPython `urlsplit` strips leading WHATWG C0-control-or-space characters
(codepoints up to 0x20); trailing ones are deliberately preserved there. -/
def lstripC0 (s : PyStr) : PyStr :=
  s.dropWhile (fun c => c.toNat ≤ 32)

/-- Split a list at the first occurrence of `sep`: returns the prefix before
it and, when present, the remainder after it (Python `str.split(sep, 1)`
and `str.find`). -/
def splitFirst (sep : Char) : PyStr → PyStr × Option PyStr
  | [] => ([], none)
  | c :: rest =>
    if c = sep then ([], some rest)
    else
      let r := splitFirst sep rest
      (c :: r.1, r.2)

/-- Split a list at its last `'/'`: `some (A, B)` with the input equal to
`A ++ '/' :: B` and no `'/'` in `B`; `none` when there is no slash. -/
def splitLastSlash : PyStr → Option (PyStr × PyStr)
  | [] => none
  | c :: rest =>
    match splitLastSlash rest with
    | some (a, b) => some (c :: a, b)
    | none => if c = '/' then some ([], rest) else none

/-- Delimiters ending the network-location part in CPython `_splitnetloc`
(`/` = 47, `?` = 63, `#` = 35). -/
def isNetlocDelim (c : Char) : Bool := c.toNat = 47 || c.toNat = 63 || c.toNat = 35

/-- CPython `_splitnetloc`: the netloc runs until the first `/`, `?` or `#`. -/
def splitNetloc (s : PyStr) : PyStr × PyStr :=
  (s.takeWhile (fun c => ¬ isNetlocDelim c), s.dropWhile (fun c => ¬ isNetlocDelim c))

/-- Scheme detection of CPython `urlsplit`: the text before the first `:`
must be nonempty, start with an ASCII letter and consist of scheme
characters; the scheme is lowercased, otherwise the URL is left intact. -/
def splitScheme (s : PyStr) : PyStr × PyStr :=
  match splitFirst ':' s with
  | (before, some after) =>
    match before with
    | [] => ([], s)
    | c :: rest =>
      if isAsciiAlpha c ∧ (c :: rest).all isSchemeChar
      then (pyLower (c :: rest), after) else ([], s)
  | (_, none) => ([], s)

/-- Result of CPython `urlsplit` (scheme, netloc, path, query, fragment). -/
structure SplitRes where
  scheme : PyStr
  netloc : PyStr
  path : PyStr
  query : PyStr
  fragment : PyStr
deriving DecidableEq, Repr

/-- Fragment split of `urlsplit`: everything after the first `#`. -/
def fragSplit (s : PyStr) : PyStr × PyStr :=
  match splitFirst '#' s with
  | (l, some r) => (l, r)
  | (l, none) => (l, [])

/-- Query split of `urlsplit`: everything after the first `?` of the
pre-fragment text. -/
def querySplit (s : PyStr) : PyStr × PyStr :=
  match splitFirst '?' s with
  | (l, some r) => (l, r)
  | (l, none) => (l, [])

/-- Netloc extraction of `urlsplit`: taken only when the post-scheme text
starts with `//`. -/
def netlocSplit (s : PyStr) : PyStr × PyStr :=
  if s.take 2 = ['/', '/'] then splitNetloc (s.drop 2) else ([], s)

/-- CPython's bracket sanity check on the netloc (`Invalid IPv6 URL`). -/
def bracketBad (netloc : PyStr) : Bool :=
  ('[' ∈ netloc ∧ ']' ∉ netloc) ∨ (']' ∈ netloc ∧ '[' ∉ netloc)

/-- CPython `urlsplit` (Python 3.10 semantics, `allow_fragments=True`):
strip leading C0-control-or-space, remove tab/CR/LF, split off the scheme,
the `//`-netloc, the fragment at the first `#`, and the query at the first
`?` of what precedes the fragment. -/
def urlsplit (url0 : PyStr) : Except String SplitRes :=
  if bracketBad (netlocSplit (splitScheme (removeUnsafe (lstripC0 url0))).2).1 then
    .error ("Invalid IPv6 URL")
  else
    .ok ⟨(splitScheme (removeUnsafe (lstripC0 url0))).1,
         (netlocSplit (splitScheme (removeUnsafe (lstripC0 url0))).2).1,
         (querySplit (fragSplit
           (netlocSplit (splitScheme (removeUnsafe (lstripC0 url0))).2).2).1).1,
         (querySplit (fragSplit
           (netlocSplit (splitScheme (removeUnsafe (lstripC0 url0))).2).2).1).2,
         (fragSplit (netlocSplit (splitScheme (removeUnsafe (lstripC0 url0))).2).2).2⟩

/-- Result of CPython `urlparse`: `urlsplit` plus the params component. -/
structure ParseResult where
  scheme : PyStr
  netloc : PyStr
  path : PyStr
  params : PyStr
  query : PyStr
  fragment : PyStr
deriving DecidableEq, Repr

/-- CPython `_splitparams`: split the path at the first `;` at-or-after the
last `/` (or the first `;` when there is no slash). -/
def splitparams (path0 : PyStr) : PyStr × PyStr :=
  if ';' ∈ path0 then
    match splitLastSlash path0 with
    | some (a, b) =>
      match splitFirst ';' b with
      | (b1, some b2) => (a ++ '/' :: b1, b2)
      | (_, none) => (path0, [])
    | none =>
      match splitFirst ';' path0 with
      | (b1, some b2) => (b1, b2)
      | (_, none) => (path0, [])
  else (path0, [])

/-- CPython `urlparse`. -/
def pyUrlparse (url : PyStr) : Except String ParseResult :=
  match urlsplit url with
  | .error e => .error e
  | .ok r =>
    let pp := splitparams r.path
    .ok ⟨r.scheme, r.netloc, pp.1, pp.2, r.query, r.fragment⟩

/-- The path-with-params of `urlunparse`: `url = "%s;%s" % (url, params)`
when params is nonempty. -/
def withParams (path params : PyStr) : PyStr :=
  if params = [] then path else path ++ ';' :: params

/-- The slash prepend of `urlunsplit` inside the netloc branch. -/
def prepSlash (l : PyStr) : PyStr :=
  if l ≠ [] ∧ l.head? ≠ some '/' then '/' :: l else l

/-- The query suffix of `urlunsplit` (empty query emits nothing). -/
def qPart (q : PyStr) : PyStr := if q = [] then [] else '?' :: q

/-- The fragment suffix of `urlunsplit` (empty fragment emits nothing). -/
def fPart (f : PyStr) : PyStr := if f = [] then [] else '#' :: f

/-- CPython `urlunparse`/`urlunsplit`. -/
def urlunparse (p : ParseResult) : PyStr :=
  let pp := withParams p.path p.params
  let core :=
    if p.netloc ≠ [] ∨ pp.take 2 = ['/', '/'] then
      '/' :: '/' :: (p.netloc ++ prepSlash pp)
    else pp
  let core2 := if p.scheme = [] then core else p.scheme ++ ':' :: core
  (core2 ++ qPart p.query) ++ fPart p.fragment

/-- Configuration constant `DEFAULT_SCHEME` from `config.py`. -/
def DEFAULT_SCHEME : PyStr := "https".data

/-- Configuration constant `ACCEPTED_SCHEMES` from `config.py`. -/
def ACCEPTED_SCHEMES : List PyStr := ["http".data, "https".data, "ftp".data, "ftps".data]

/-- Configuration constant `MAX_TAG_LENGTH` from `config.py`. -/
def MAX_TAG_LENGTH : Nat := 64

/-- Configuration constant `MAX_TAGS_PER_BOOKMARK` from `config.py`. -/
def MAX_TAGS_PER_BOOKMARK : Nat := 20

/-- Configuration constant `MAX_TITLE_LENGTH` from `config.py`. -/
def MAX_TITLE_LENGTH : Nat := 500

/-- Configuration constant `MAX_DESCRIPTION_LENGTH` from `config.py`. -/
def MAX_DESCRIPTION_LENGTH : Nat := 2000

/-- Configuration constant `DEFAULT_LIST_LIMIT` from `config.py`. -/
def DEFAULT_LIST_LIMIT : Nat := 50

/-- Configuration constant `MAX_LIST_LIMIT` from `config.py` (declared as
the maximum allowed limit for list operations). -/
def MAX_LIST_LIMIT : Nat := 1000

/-- Application error values (the exception classes of `exceptions.py`
reachable from the modelled operations).  Error messages built by string
interpolation in the sources are carried as the raw URL plus a fixed
reason string. -/
inductive BMError where
  | invalidURL (url : PyStr) (reason : String)
  | duplicateBookmark (url : PyStr)
  | bookmarkNotFound (id : Nat)
  | databaseError (operation : String) (reason : String)
deriving DecidableEq, Repr

/-- Step 2 of `BookmarkService._normalize_url`: prepend the default scheme
when the regex finds no `scheme://` mark. -/
def ensureScheme (s : PyStr) : PyStr :=
  if matchesSchemeRe s then s else DEFAULT_SCHEME ++ ':' :: '/' :: '/' :: s

/-- Collapse of step 4 of `_normalize_url`: a path of exactly `/` becomes
empty. -/
def collapseRootPath (p : PyStr) : PyStr :=
  if p = ['/'] then [] else p

/-- `BookmarkService._normalize_url` from `service.py`. -/
def _normalize_url (raw : PyStr) : Except BMError PyStr :=
  let url := pyStrip raw
  if url = [] then .error (.invalidURL raw "URL is empty")
  else
    let url2 := ensureScheme url
    match pyUrlparse url2 with
    | .error e => .error (.invalidURL raw e)
    | .ok p =>
      if p.scheme ∉ ACCEPTED_SCHEMES then .error (.invalidURL raw "Scheme is not allowed")
      else if p.netloc = [] then .error (.invalidURL raw "URL has no host")
      else .ok (urlunparse ⟨p.scheme, pyLower p.netloc, collapseRootPath p.path,
                            p.params, p.query, p.fragment⟩)

example : _normalize_url "example.com".data = .ok "https://example.com".data := by decide

example : _normalize_url "HTTPS://Example.com/".data = .ok "https://example.com".data := by decide

example : _normalize_url "http://a.com ?".data = .ok "http://a.com ".data := by decide

example : _normalize_url "http://a.com ".data = .ok "http://a.com".data := by decide

/-- Insert `x` into `l` before the first element `y` with `le x y` true:
one step of the insertion sort used to model ordered results. -/
def insertLe (le : α → α → Bool) (x : α) : List α → List α
  | [] => [x]
  | y :: l => if le x y then x :: y :: l else y :: insertLe le x l

/-- Insertion sort with respect to a boolean comparison, modelling the
deterministic orderings (`sorted`, SQL `ORDER BY`) of the sources. -/
def sortLe (le : α → α → Bool) : List α → List α
  | [] => []
  | x :: l => insertLe le x (sortLe le l)

/-- Python string comparison: lexicographic on character codepoints. -/
def pyStrLe : PyStr → PyStr → Bool
  | [], _ => true
  | _ :: _, [] => false
  | a :: s, b :: t => if a = b then pyStrLe s t else decide (a.toNat ≤ b.toNat)

/-- Python `sorted` on a list of strings. -/
def sortStrs (l : List PyStr) : List PyStr := sortLe pyStrLe l

/-- `BookmarkService._normalize_single_tag`: strip, lowercase, truncate. -/
def _normalize_single_tag (t : PyStr) : PyStr :=
  (pyLower (pyStrip t)).take MAX_TAG_LENGTH

/-- Loop body of `BookmarkService._normalize_tags`: accumulate normalized
tags in order, skipping empties and duplicates, and stop once the
accumulator reaches `MAX_TAGS_PER_BOOKMARK` (the Python loop breaks after
the iteration that reaches the cap). -/
def _normalize_tags_loop : List PyStr → List PyStr → List PyStr
  | [], acc => acc
  | raw :: rest, acc =>
    let t := _normalize_single_tag raw
    let acc2 := if t ≠ [] ∧ t ∉ acc then acc ++ [t] else acc
    if MAX_TAGS_PER_BOOKMARK ≤ acc2.length then acc2
    else _normalize_tags_loop rest acc2

/-- `BookmarkService._normalize_tags`: the loop above followed by
Python `sorted`. -/
def _normalize_tags (tags : List PyStr) : List PyStr :=
  sortStrs (_normalize_tags_loop tags [])

example :
    _normalize_tags ["Python".data, "PYTHON".data, " python ".data] = ["python".data] := by
  decide

/-- `BookmarkService._clean_title`: strip and truncate a title. -/
def _clean_title (t : PyStr) : PyStr :=
  (pyStrip t).take MAX_TITLE_LENGTH

/-- Row of the `bookmarks` table. -/
structure BookmarkRow where
  id : Nat
  url : PyStr
  title : PyStr
  description : PyStr
  created_at : Nat
  updated_at : Nat
deriving DecidableEq, Repr

/-- Row of the `tags` table (the creation timestamp plays no role in the
modelled operations and is omitted). -/
structure TagRow where
  id : Nat
  name : PyStr
deriving DecidableEq, Repr

/-- The SQLite database state: the three tables plus the next
auto-increment keys. -/
structure Store where
  bookmarks : List BookmarkRow
  tags : List TagRow
  bookmark_tags : List (Nat × Nat)
  nextBookmarkId : Nat
  nextTagId : Nat
deriving DecidableEq, Repr

/-- A freshly initialized database (SQLite row ids start at 1). -/
def Store.empty : Store := ⟨[], [], [], 1, 1⟩

/-- Well-formedness of a store state: unique ids and tag names, ids below
the auto-increment counters.  These invariants come from the primary keys,
the UNIQUE constraints of the schema, and auto-increment id assignment. -/
def Store.WF (s : Store) : Prop :=
  (s.bookmarks.map (fun r => r.id)).Nodup ∧
  (∀ r ∈ s.bookmarks, r.id < s.nextBookmarkId) ∧
  (s.tags.map (fun t => t.id)).Nodup ∧
  (s.tags.map (fun t => t.name)).Nodup ∧
  (∀ t ∈ s.tags, t.id < s.nextTagId) ∧
  (∀ p ∈ s.bookmark_tags, p.2 < s.nextTagId)

instance (s : Store) : Decidable s.WF := by
  unfold Store.WF
  infer_instance

/-- The `Bookmark` dataclass of `models.py` (timestamps as naturals). -/
structure Bookmark where
  id : Nat
  url : PyStr
  title : PyStr
  description : PyStr
  created_at : Nat
  updated_at : Nat
  tags : List PyStr
deriving DecidableEq, Repr

/-- The `TagCount` dataclass of `models.py`. -/
structure TagCount where
  name : PyStr
  count : Nat
deriving DecidableEq, Repr

/-- The tag names associated with a bookmark, in association order (the
join of `_get_tag_names_for_bookmark` before its `ORDER BY`). -/
def assocNames (s : Store) (bid : Nat) : List PyStr :=
  (s.bookmark_tags.filter (fun p => p.1 = bid)).filterMap
    (fun p => (s.tags.find? (fun t => t.id = p.2)).map (fun t => t.name))

/-- `BookmarkRepository._get_tag_names_for_bookmark`: tag names joined via
`bookmark_tags`, ordered by name ascending. -/
def _get_tag_names_for_bookmark (s : Store) (bid : Nat) : List PyStr :=
  sortStrs (assocNames s bid)

/-- `BookmarkRepository._row_to_bookmark` combined with the tag fetch. -/
def rowToBookmark (s : Store) (r : BookmarkRow) : Bookmark :=
  ⟨r.id, r.url, r.title, r.description, r.created_at, r.updated_at,
   _get_tag_names_for_bookmark s r.id⟩

/-- Lookup of a bookmark row by primary key (`SELECT * WHERE id = ?`). -/
def findRow (s : Store) (bid : Nat) : Option BookmarkRow :=
  s.bookmarks.find? (fun r => r.id = bid)

/-- `BookmarkRepository.get_bookmark_by_id`. -/
def get_bookmark_by_id (s : Store) (bid : Nat) : Except BMError Bookmark :=
  match findRow s bid with
  | none => .error (.bookmarkNotFound bid)
  | some r => .ok (rowToBookmark s r)

/-- `BookmarkRepository.create_bookmark`.  Modelled from the spec: the
schema file is absent from the sources, so the UNIQUE constraint on `url`
(surfacing as `DuplicateBookmarkError` via `sqlite3.IntegrityError`) and
the `created_at`/`updated_at` defaults of "current timestamp for both"
are taken from the specification; `now` is the transaction time. -/
def create_bookmark (s : Store) (now : Nat) (url title description : PyStr) :
    Except BMError (Bookmark × Store) :=
  if s.bookmarks.any (fun r => r.url = url) then .error (.duplicateBookmark url)
  else
    let r : BookmarkRow := ⟨s.nextBookmarkId, url, title, description, now, now⟩
    let s2 : Store := { s with bookmarks := s.bookmarks ++ [r],
                               nextBookmarkId := s.nextBookmarkId + 1 }
    .ok (rowToBookmark s2 r, s2)

/-- `BookmarkRepository.get_or_create_tag`. -/
def get_or_create_tag (s : Store) (name : PyStr) : TagRow × Store :=
  match s.tags.find? (fun t => t.name = name) with
  | some t => (t, s)
  | none =>
    let t : TagRow := ⟨s.nextTagId, name⟩
    (t, { s with tags := s.tags ++ [t], nextTagId := s.nextTagId + 1 })

/-- `BookmarkRepository.add_tags_to_bookmark`: get-or-create each tag and
insert the association unless it already exists (`INSERT OR IGNORE`; the
primary key on `(bookmark_id, tag_id)` is schema behaviour, matching the
spec's no-duplicate-association invariant). -/
def add_tag_once (s : Store) (bid : Nat) (name : PyStr) : Store :=
  if (bid, (get_or_create_tag s name).1.id) ∈ (get_or_create_tag s name).2.bookmark_tags
  then (get_or_create_tag s name).2
  else { (get_or_create_tag s name).2 with
         bookmark_tags := (get_or_create_tag s name).2.bookmark_tags ++
           [(bid, (get_or_create_tag s name).1.id)] }

def add_tags_to_bookmark (s : Store) (bid : Nat) (names : List PyStr) : Store :=
  names.foldl (fun st name => add_tag_once st bid name) s

/-- The `DELETE FROM bookmark_tags WHERE bookmark_id = ?` statement of
`set_tags_for_bookmark`. -/
def removeAssocs (s : Store) (bid : Nat) : Store :=
  { s with bookmark_tags := s.bookmark_tags.filter (fun p => ¬ p.1 = bid) }

/-- `BookmarkRepository.set_tags_for_bookmark`: delete all associations of
the bookmark, then add the given list. -/
def set_tags_for_bookmark (s : Store) (bid : Nat) (names : List PyStr) : Store :=
  if names = [] then removeAssocs s bid
  else add_tags_to_bookmark (removeAssocs s bid) bid names

/-- The row produced by the UPDATE statement of
`BookmarkRepository.update_bookmark` (the `updated_at := now` refresh is
modelled from the spec: the schema file whose trigger/default would
implement the documented refresh is absent from the sources). -/
def patchRow (q : BookmarkRow) (newTitle newDesc : PyStr) (now : Nat) : BookmarkRow :=
  { q with title := newTitle, description := newDesc, updated_at := now }

/-- The store after the UPDATE statement: every row with the given id gets
the new title/description (and the spec-modelled timestamp refresh). -/
def updStore (s : Store) (bid : Nat) (newTitle newDesc : PyStr) (now : Nat) : Store :=
  let f := fun q => if q.id = bid then patchRow q newTitle newDesc now else q
  { s with bookmarks := s.bookmarks.map f }

/-- `BookmarkRepository.update_bookmark`: verify existence, take the
existing value for fields passed as `None`, run the UPDATE, re-fetch. -/
def repo_update_bookmark (s : Store) (now : Nat) (bid : Nat)
    (title description : Option PyStr) : Except BMError (Bookmark × Store) :=
  match findRow s bid with
  | none => .error (.bookmarkNotFound bid)
  | some existing =>
    match findRow (updStore s bid (title.getD existing.title)
        (description.getD existing.description) now) bid with
    | none => .error (.bookmarkNotFound bid)
    | some r2 =>
      .ok (rowToBookmark (updStore s bid (title.getD existing.title)
            (description.getD existing.description) now) r2,
          updStore s bid (title.getD existing.title)
            (description.getD existing.description) now)

/-- `BookmarkRepository.delete_bookmark`: verify existence, delete the row;
the `bookmark_tags` rows disappear through the schema's cascade (modelled
from the spec, schema file absent from the sources). -/
def delete_bookmark (s : Store) (bid : Nat) : Except BMError Store :=
  match findRow s bid with
  | none => .error (.bookmarkNotFound bid)
  | some _ =>
    .ok { s with bookmarks := s.bookmarks.filter (fun r => ¬ r.id = bid),
                 bookmark_tags := s.bookmark_tags.filter (fun p => ¬ p.1 = bid) }

/-- Whether a bookmark row carries a tag of the given name (the join used
by the tag filter of `BookmarkRepository.list_bookmarks`). -/
def rowHasTag (s : Store) (bid : Nat) (name : PyStr) : Bool :=
  s.bookmark_tags.any (fun p =>
    p.1 = bid ∧ s.tags.any (fun t => t.id = p.2 ∧ t.name = name))

/-- Ordering `ORDER BY created_at DESC` (most recent first). -/
def createdDescLe (a b : BookmarkRow) : Bool :=
  decide (b.created_at ≤ a.created_at)

/-- `BookmarkRepository.list_bookmarks`: optional tag filter, ordered by
creation time descending, with `OFFSET` and `LIMIT` (`limit` and `offset`
are modelled as naturals — the sources always pass non-negative values). -/
def repo_list_bookmarks (s : Store) (tag : Option PyStr) (limit offset : Nat) :
    List Bookmark :=
  let rows := match tag with
    | some t => if t = [] then s.bookmarks else s.bookmarks.filter (fun r => rowHasTag s r.id t)
    | none => s.bookmarks
  (((sortLe createdDescLe rows).drop offset).take limit).map (rowToBookmark s)

/-- Number of associations of a tag (`COUNT(bt.bookmark_id)` of the LEFT
JOIN in `list_all_tags`; zero when the tag has no associations). -/
def tagBookmarkCount (s : Store) (tid : Nat) : Nat :=
  (s.bookmark_tags.filter (fun p => p.2 = tid)).length

/-- Ordering `ORDER BY count DESC, t.name ASC` of `list_all_tags`. -/
def tagCountLe (a b : TagCount) : Bool :=
  if b.count < a.count then true
  else if a.count = b.count then pyStrLe a.name b.name
  else false

/-- `BookmarkRepository.list_all_tags`: every row of the `tags` table with
its association count (LEFT JOIN, so tags without bookmarks appear with
count 0), ordered by count descending then name ascending. -/
def list_all_tags (s : Store) : List TagCount :=
  sortLe tagCountLe (s.tags.map (fun t => ⟨t.name, tagBookmarkCount s t.id⟩))

/-- `BookmarkService.add_bookmark`: normalize, create, attach tags, and in
that case re-fetch so the returned bookmark includes its tags.  The Python
fallback `title or normalized_url` substitutes the canonical URL only when
`title` is the empty string. -/
def add_bookmark (s : Store) (now : Nat) (url title description : PyStr)
    (tags : Option (List PyStr)) : Except BMError (Bookmark × Store) :=
  match _normalize_url url with
  | .error e => .error e
  | .ok normalized_url =>
    let clean_title := _clean_title (if title = [] then normalized_url else title)
    let clean_desc := (pyStrip description).take MAX_DESCRIPTION_LENGTH
    let normalized_tags := _normalize_tags (tags.getD [])
    match create_bookmark s now normalized_url clean_title clean_desc with
    | .error e => .error e
    | .ok (bm, s2) =>
      if normalized_tags = [] then .ok (bm, s2)
      else
        let s3 := add_tags_to_bookmark s2 bm.id normalized_tags
        match get_bookmark_by_id s3 bm.id with
        | .error e => .error e
        | .ok bm2 => .ok (bm2, s3)

/-- `BookmarkService.update_bookmark`: clean the supplied fields, patch via
the repository, and when `tags` is supplied (even `[]`) replace the whole
tag set and re-fetch. -/
def service_update_bookmark (s : Store) (now : Nat) (bid : Nat)
    (title description : Option PyStr) (tags : Option (List PyStr)) :
    Except BMError (Bookmark × Store) :=
  match repo_update_bookmark s now bid (title.map _clean_title)
      (description.map (fun v => (pyStrip v).take MAX_DESCRIPTION_LENGTH)) with
  | .error e => .error e
  | .ok (bm, s2) =>
    match tags with
    | none => .ok (bm, s2)
    | some ts =>
      match get_bookmark_by_id (set_tags_for_bookmark s2 bid (_normalize_tags ts)) bid with
      | .error e => .error e
      | .ok bm2 => .ok (bm2, set_tags_for_bookmark s2 bid (_normalize_tags ts))

/-- `BookmarkService.list_bookmarks`: normalize the filter tag (Python
truthiness: `None` and the empty string both mean "no filter") and
delegate; the limit is passed through unmodified. -/
def service_list_bookmarks (s : Store) (tag : Option PyStr) (limit offset : Nat) :
    List Bookmark :=
  let clean_tag := match tag with
    | some t => if t = [] then none else some (_normalize_single_tag t)
    | none => none
  repo_list_bookmarks s clean_tag limit offset

/-- Run an operation the way the Python layers observe the database: on
success the new state is kept, on an exception the transaction has rolled
back (`Database.connection` commits on success and rolls back on error),
so the state is unchanged. -/
def runOp (s : Store) (op : Except BMError (α × Store)) : Except BMError α × Store :=
  match op with
  | .ok (a, s2) => (.ok a, s2)
  | .error e => (.error e, s)

/-- The `ImportResult` accumulator dataclass of `models.py`. -/
structure ImportResult where
  total : Nat
  imported : Nat
  skipped : Nat
  errors : List PyStr
deriving DecidableEq, Repr

/-- A fresh `ImportResult()`. -/
def ImportResult.empty : ImportResult := ⟨0, 0, 0, []⟩

/-- `ImportResult.add_error`. -/
def ImportResult.add_error (r : ImportResult) (msg : PyStr) : ImportResult :=
  { r with errors := r.errors ++ [msg], total := r.total + 1 }

/-- `ImportResult.add_success`. -/
def ImportResult.add_success (r : ImportResult) : ImportResult :=
  { r with total := r.total + 1, imported := r.imported + 1 }

/-- `ImportResult.add_skip`. -/
def ImportResult.add_skip (r : ImportResult) : ImportResult :=
  { r with total := r.total + 1, skipped := r.skipped + 1 }

/-- The failure message recorded by `import_bookmark` for an invalid URL
(`f"Invalid URL '{url}': {exc.reason or 'unknown reason'}"`). -/
def invalidUrlMsg (url : PyStr) (reason : String) : PyStr :=
  "Invalid URL '".data ++ url ++ "': ".data ++
    (if reason = "" then "unknown reason".data else reason.data)

/-- The try/except structure of `BookmarkService.import_bookmark`: a
`DuplicateBookmarkError` is counted as a skip, an `InvalidURLError` is
recorded as an error message, and every other exception propagates
(the state is that of the rolled-back failed call). -/
def import_handle (s : Store) (result : ImportResult) (url : PyStr)
    (outcome : Except BMError (Bookmark × Store)) :
    Except BMError (Option Bookmark × ImportResult × Store) :=
  match outcome with
  | .ok (bm, s2) => .ok (some bm, result.add_success, s2)
  | .error (.duplicateBookmark _) => .ok (none, result.add_skip, s)
  | .error (.invalidURL _ reason) => .ok (none, result.add_error (invalidUrlMsg url reason), s)
  | .error e => .error e

/-- `BookmarkService.import_bookmark`: attempt `add_bookmark` and record
the outcome in the accumulator. -/
def import_bookmark (s : Store) (now : Nat) (url title description : PyStr)
    (tags : Option (List PyStr)) (result : ImportResult) :
    Except BMError (Option Bookmark × ImportResult × Store) :=
  import_handle s result url (add_bookmark s now url title description tags)

/-- Adjacent-pairs ordering predicate for a boolean comparison. -/
def ChainB (le : α → α → Bool) : List α → Prop
  | [] => True
  | [_] => True
  | x :: y :: l => le x y = true ∧ ChainB le (y :: l)

theorem chainB_tail {le : α → α → Bool} {y : α} {l : List α}
    (h : ChainB le (y :: l)) : ChainB le l := by
  cases l with
  | nil => trivial
  | cons z l => exact h.2

theorem chainB_cons_of {le : α → α → Bool} {y : α} {l : List α}
    (hl : ChainB le l) (hh : ∀ z, l.head? = some z → le y z = true) :
    ChainB le (y :: l) := by
  cases l with
  | nil => trivial
  | cons z l => exact ⟨hh z rfl, hl⟩

theorem insertLe_head {le : α → α → Bool} (x : α) (l : List α) :
    (insertLe le x l).head? = some x ∨ (insertLe le x l).head? = l.head? := by
  cases l with
  | nil => exact .inl rfl
  | cons y l =>
    by_cases h : le x y = true
    · exact .inl (by simp [insertLe, h])
    · exact .inr (by simp [insertLe, h])

theorem chainB_insertLe {le : α → α → Bool}
    (tot : ∀ a b, le a b = true ∨ le b a = true) (x : α) :
    ∀ l, ChainB le l → ChainB le (insertLe le x l) := by
  intro l
  induction l with
  | nil => intro _; trivial
  | cons y l ih =>
    intro hch
    by_cases hxy : le x y = true
    · have hrw : insertLe le x (y :: l) = x :: y :: l := by simp [insertLe, hxy]
      rw [hrw]
      exact ⟨hxy, hch⟩
    · have hyx : le y x = true := (tot x y).resolve_left hxy
      have htail : ChainB le (insertLe le x l) := ih (chainB_tail hch)
      have hhead : ∀ z, (insertLe le x l).head? = some z → le y z = true := by
        intro z hz
        rcases @insertLe_head _ le x l with h | h
        · rw [h] at hz
          cases hz
          exact hyx
        · rw [h] at hz
          cases l with
          | nil => simp at hz
          | cons w l =>
            cases hz
            exact hch.1
      simpa [insertLe, hxy] using chainB_cons_of htail hhead

theorem chainB_sortLe {le : α → α → Bool}
    (tot : ∀ a b, le a b = true ∨ le b a = true) :
    ∀ l : List α, ChainB le (sortLe le l) := by
  intro l
  induction l with
  | nil => trivial
  | cons x l ih => exact chainB_insertLe tot x _ ih

theorem sortLe_eq_of_chainB {le : α → α → Bool} :
    ∀ l : List α, ChainB le l → sortLe le l = l := by
  intro l
  induction l with
  | nil => intro _; rfl
  | cons x l ih =>
    intro hch
    have h1 : sortLe le (x :: l) = insertLe le x l := by
      simp [sortLe, ih (chainB_tail hch)]
    cases l with
    | nil => simp [h1, insertLe]
    | cons y l => simp [h1, insertLe, hch.1]

theorem insertLe_perm {le : α → α → Bool} (x : α) :
    ∀ l : List α, (insertLe le x l).Perm (x :: l) := by
  intro l
  induction l with
  | nil => simp [insertLe]
  | cons y l ih =>
    by_cases h : le x y = true
    · simp [insertLe, h]
    · simpa [insertLe, h] using ((ih.cons y).trans (List.Perm.swap x y l))

theorem sortLe_perm {le : α → α → Bool} :
    ∀ l : List α, (sortLe le l).Perm l := by
  intro l
  induction l with
  | nil => simp [sortLe]
  | cons x l ih => exact (insertLe_perm x (sortLe le l)).trans (ih.cons x)

theorem sortLe_length {le : α → α → Bool} (l : List α) :
    (sortLe le l).length = l.length :=
  (sortLe_perm l).length_eq

theorem sortLe_mem {le : α → α → Bool} (l : List α) (a : α) :
    a ∈ sortLe le l ↔ a ∈ l :=
  (sortLe_perm l).mem_iff

theorem sortLe_nodup {le : α → α → Bool} {l : List α} (h : l.Nodup) :
    (sortLe le l).Nodup :=
  ((sortLe_perm l).nodup_iff).mpr h

theorem pyStrLe_total : ∀ a b : PyStr, pyStrLe a b = true ∨ pyStrLe b a = true := by
  intro a
  induction a with
  | nil => intro b; exact .inl rfl
  | cons c s ih =>
    intro b
    cases b with
    | nil => exact .inr rfl
    | cons d t =>
      by_cases hcd : c = d
      · subst hcd
        rcases ih t with h | h
        · exact .inl (by simpa [pyStrLe] using h)
        · exact .inr (by simpa [pyStrLe] using h)
      · have hdc : ¬ d = c := fun h => hcd h.symm
        rcases Nat.le_total c.toNat d.toNat with h | h
        · exact .inl (by simp [pyStrLe, hcd, h])
        · exact .inr (by simp [pyStrLe, hdc, h])

theorem tagCountLe_total : ∀ a b : TagCount, tagCountLe a b = true ∨ tagCountLe b a = true := by
  intro a b
  rcases Nat.lt_trichotomy a.count b.count with h | h | h
  · exact .inr (by simp [tagCountLe, h])
  · rcases pyStrLe_total a.name b.name with hs | hs
    · exact .inl (by simp [tagCountLe, h, hs])
    · exact .inr (by simp [tagCountLe, h.symm, hs])
  · exact .inl (by simp [tagCountLe, h])


theorem tags_loop_step (raw : PyStr) (rest acc : List PyStr) :
    ∃ acc2 : List PyStr,
      _normalize_tags_loop (raw :: rest) acc =
        (if MAX_TAGS_PER_BOOKMARK ≤ acc2.length then acc2
         else _normalize_tags_loop rest acc2) ∧
      ((acc2 = acc ∧ (_normalize_single_tag raw = [] ∨ _normalize_single_tag raw ∈ acc)) ∨
       (acc2 = acc ++ [_normalize_single_tag raw] ∧
        _normalize_single_tag raw ≠ [] ∧ _normalize_single_tag raw ∉ acc)) := by
  by_cases h : _normalize_single_tag raw ≠ [] ∧ _normalize_single_tag raw ∉ acc
  · refine ⟨acc ++ [_normalize_single_tag raw], ?_, .inr ⟨rfl, h⟩⟩
    simp only [_normalize_tags_loop, if_pos h]
  · refine ⟨acc, ?_, .inl ⟨rfl, ?_⟩⟩
    · simp only [_normalize_tags_loop, if_neg h]
    · rcases not_and_or.mp h with h1 | h1
      · exact .inl (by simpa using h1)
      · exact .inr (by simpa using h1)

theorem tags_loop_mem :
    ∀ (ts acc : List PyStr) (t : PyStr), t ∈ _normalize_tags_loop ts acc →
      t ∈ acc ∨ ∃ raw ∈ ts, _normalize_single_tag raw = t := by
  intro ts
  induction ts with
  | nil =>
    intro acc t ht
    exact .inl ht
  | cons raw rest ih =>
    intro acc t ht
    obtain ⟨acc2, heq, hd⟩ := tags_loop_step raw rest acc
    rw [heq] at ht
    have hmem2 : t ∈ acc2 → t ∈ acc ∨ ∃ r ∈ raw :: rest, _normalize_single_tag r = t := by
      intro hu
      rcases hd with ⟨h, _⟩ | ⟨h, _, _⟩
      · exact .inl (h ▸ hu)
      · rw [h] at hu
        rcases List.mem_append.mp hu with hm | hm
        · exact .inl hm
        · exact .inr ⟨raw, List.mem_cons_self raw rest, (List.mem_singleton.mp hm).symm⟩
    split at ht
    · exact hmem2 ht
    · rcases ih acc2 t ht with h | h
      · exact hmem2 h
      · rcases h with ⟨r, hr, hrt⟩
        exact .inr ⟨r, List.mem_cons_of_mem raw hr, hrt⟩

theorem tags_loop_nodup :
    ∀ (ts acc : List PyStr), acc.Nodup → (_normalize_tags_loop ts acc).Nodup := by
  intro ts
  induction ts with
  | nil => intro acc h; exact h
  | cons raw rest ih =>
    intro acc h
    obtain ⟨acc2, heq, hd⟩ := tags_loop_step raw rest acc
    rw [heq]
    have h2 : acc2.Nodup := by
      rcases hd with ⟨hcase, _⟩ | ⟨hcase, _, hnotin⟩
      · exact hcase ▸ h
      · rw [hcase]
        refine List.Nodup.append h (List.nodup_singleton _) ?_
        intro a ha hb
        rw [List.mem_singleton.mp hb] at ha
        exact hnotin ha
    split
    · exact h2
    · exact ih acc2 h2

theorem tags_loop_nonempty :
    ∀ (ts acc : List PyStr), (∀ t ∈ acc, t ≠ []) →
      ∀ t ∈ _normalize_tags_loop ts acc, t ≠ [] := by
  intro ts
  induction ts with
  | nil => intro acc h; exact h
  | cons raw rest ih =>
    intro acc h t ht
    obtain ⟨acc2, heq, hd⟩ := tags_loop_step raw rest acc
    rw [heq] at ht
    have h2 : ∀ u ∈ acc2, u ≠ [] := by
      intro u hu
      rcases hd with ⟨hcase, _⟩ | ⟨hcase, hne, _⟩
      · exact h u (hcase ▸ hu)
      · rw [hcase] at hu
        rcases List.mem_append.mp hu with hm | hm
        · exact h u hm
        · rw [List.mem_singleton.mp hm]
          exact hne
    split at ht
    · exact h2 t ht
    · exact ih acc2 h2 t ht

theorem tags_loop_length :
    ∀ (ts acc : List PyStr), acc.length < MAX_TAGS_PER_BOOKMARK →
      (_normalize_tags_loop ts acc).length ≤ MAX_TAGS_PER_BOOKMARK := by
  intro ts
  induction ts with
  | nil => intro acc h; exact Nat.le_of_lt h
  | cons raw rest ih =>
    intro acc h
    obtain ⟨acc2, heq, hd⟩ := tags_loop_step raw rest acc
    rw [heq]
    have hlen : acc2.length ≤ acc.length + 1 := by
      rcases hd with ⟨hcase, _⟩ | ⟨hcase, _, _⟩
      · rw [hcase]
        exact Nat.le_succ _
      · rw [hcase]
        simp
    split
    · next hcap => omega
    · next hcap => exact ih acc2 (by omega)

theorem tags_loop_mono :
    ∀ (ts acc : List PyStr) (t : PyStr), t ∈ acc → t ∈ _normalize_tags_loop ts acc := by
  intro ts
  induction ts with
  | nil => intro acc t h; exact h
  | cons raw rest ih =>
    intro acc t h
    obtain ⟨acc2, heq, hd⟩ := tags_loop_step raw rest acc
    rw [heq]
    have h2 : t ∈ acc2 := by
      rcases hd with ⟨hcase, _⟩ | ⟨hcase, _, _⟩
      · exact hcase ▸ h
      · rw [hcase]
        exact List.mem_append_left _ h
    split
    · exact h2
    · exact ih acc2 t h2

theorem tags_loop_complete :
    ∀ (ts acc : List PyStr) (raw : PyStr), raw ∈ ts →
      _normalize_single_tag raw = [] ∨ _normalize_single_tag raw ∈ _normalize_tags_loop ts acc ∨
        MAX_TAGS_PER_BOOKMARK ≤ (_normalize_tags_loop ts acc).length := by
  intro ts
  induction ts with
  | nil => intro acc raw h; cases h
  | cons r0 rest ih =>
    intro acc raw hraw
    by_cases hnil : _normalize_single_tag raw = []
    · exact .inl hnil
    obtain ⟨acc2, heq, hd⟩ := tags_loop_step r0 rest acc
    rw [heq]
    rcases List.mem_cons.mp hraw with hfirst | hmem
    · subst hfirst
      have hin : _normalize_single_tag raw ∈ acc2 := by
        rcases hd with ⟨hcase, hor⟩ | ⟨hcase, _, _⟩
        · subst hcase
          exact hor.resolve_left hnil
        · rw [hcase]
          exact List.mem_append_right _ (List.mem_singleton_self _)
      split
      · exact .inr (.inl hin)
      · exact .inr (.inl (tags_loop_mono rest acc2 _ hin))
    · split
      · next hcap => exact .inr (.inr hcap)
      · exact ih acc2 raw hmem

/-- C4: tag-list normalization — every output tag is the trim/lowercase/
truncate image of an input tag, empties and duplicates are dropped, the
output size never exceeds `MAX_TAGS_PER_BOOKMARK`, an input tag is only
missing when it normalizes to empty or the cap was reached, and
`["Python", "PYTHON", " python "]` normalizes to exactly `["python"]`. -/
theorem C4_normalize_tags :
    (∀ ts : List PyStr,
      (_normalize_tags ts).length ≤ MAX_TAGS_PER_BOOKMARK ∧
      (_normalize_tags ts).Nodup ∧
      (∀ t ∈ _normalize_tags ts, t ≠ [] ∧ ∃ raw ∈ ts, _normalize_single_tag raw = t) ∧
      (∀ raw ∈ ts, _normalize_single_tag raw = [] ∨
        _normalize_single_tag raw ∈ _normalize_tags ts ∨
        MAX_TAGS_PER_BOOKMARK ≤ (_normalize_tags ts).length)) ∧
    _normalize_tags ["Python".data, "PYTHON".data, " python ".data] = ["python".data] := by
  constructor
  · intro ts
    refine ⟨?_, ?_, ?_, ?_⟩
    · rw [_normalize_tags, sortStrs, sortLe_length]
      exact tags_loop_length ts [] (by decide)
    · exact sortLe_nodup (tags_loop_nodup ts [] List.nodup_nil)
    · intro t ht
      rw [_normalize_tags, sortStrs, sortLe_mem] at ht
      refine ⟨tags_loop_nonempty ts [] (by simp) t ht, ?_⟩
      rcases tags_loop_mem ts [] t ht with h | h
      · cases h
      · exact h
    · intro raw hraw
      rcases tags_loop_complete ts [] raw hraw with h | h | h
      · exact .inl h
      · exact .inr (.inl (by rw [_normalize_tags, sortStrs, sortLe_mem]; exact h))
      · exact .inr (.inr (by rw [_normalize_tags, sortStrs, sortLe_length]; exact h))
  · decide

/-- Witness for C4 at concrete inputs: the normalization of
`["Python", "WEB", "Python", ""]`. -/
theorem C4_normalize_tags_witness :
    (_normalize_tags ["Python".data, "WEB".data, "Python".data, "".data]).Nodup ∧
    (∀ t ∈ _normalize_tags ["Python".data, "WEB".data, "Python".data, "".data],
      t ≠ [] ∧ ∃ raw ∈ ["Python".data, "WEB".data, "Python".data, "".data],
        _normalize_single_tag raw = t) :=
  ⟨(C4_normalize_tags.1 _).2.1, (C4_normalize_tags.1 _).2.2.1⟩

/-- C3: `_normalize_url` implements the specified algorithm — empty input
after trimming fails with `InvalidURL`; a missing `scheme://` mark gets the
default `https` scheme prepended; a scheme outside the accepted set or a
missing host fails with `InvalidURL`; otherwise the host is lowercased, a
path of exactly `/` is collapsed to empty, and the parts are reassembled;
and the two scenario inputs normalize as specified. -/
theorem C3_normalize_url_algorithm :
    (∀ u : PyStr, pyStrip u = [] →
      _normalize_url u = .error (.invalidURL u "URL is empty")) ∧
    (∀ v : PyStr, matchesSchemeRe v = false →
      ensureScheme v = DEFAULT_SCHEME ++ ':' :: '/' :: '/' :: v) ∧
    (∀ v : PyStr, matchesSchemeRe v = true → ensureScheme v = v) ∧
    (∀ (u : PyStr) (p : ParseResult), pyStrip u ≠ [] →
      pyUrlparse (ensureScheme (pyStrip u)) = .ok p → p.scheme ∉ ACCEPTED_SCHEMES →
      _normalize_url u = .error (.invalidURL u "Scheme is not allowed")) ∧
    (∀ (u : PyStr) (p : ParseResult), pyStrip u ≠ [] →
      pyUrlparse (ensureScheme (pyStrip u)) = .ok p → p.scheme ∈ ACCEPTED_SCHEMES →
      p.netloc = [] → _normalize_url u = .error (.invalidURL u "URL has no host")) ∧
    (∀ (u : PyStr) (p : ParseResult), pyStrip u ≠ [] →
      pyUrlparse (ensureScheme (pyStrip u)) = .ok p → p.scheme ∈ ACCEPTED_SCHEMES →
      p.netloc ≠ [] →
      _normalize_url u = .ok (urlunparse ⟨p.scheme, pyLower p.netloc,
        collapseRootPath p.path, p.params, p.query, p.fragment⟩)) ∧
    _normalize_url "example.com".data = .ok "https://example.com".data ∧
    _normalize_url "HTTPS://Example.com/".data = .ok "https://example.com".data := by
  refine ⟨?_, ?_, ?_, ?_, ?_, ?_, by decide, by decide⟩
  · intro u h
    simp [_normalize_url, h]
  · intro v h
    simp [ensureScheme, h]
  · intro v h
    simp [ensureScheme, h]
  · intro u p hne hp hs
    simp [_normalize_url, hne, hp, hs]
  · intro u p hne hp hs hn
    simp [_normalize_url, hne, hp, hs, hn]
  · intro u p hne hp hs hn
    simp [_normalize_url, hne, hp, hs, hn]

/-- Witness for C3 at concrete inputs: a whitespace-only URL, a
`javascript://` scheme, a host-less URL, and the successful scenario
input. -/
theorem C3_normalize_url_witness :
    _normalize_url "   ".data = .error (.invalidURL "   ".data "URL is empty") ∧
    _normalize_url "javascript://x".data =
      .error (.invalidURL "javascript://x".data "Scheme is not allowed") ∧
    _normalize_url "https://".data =
      .error (.invalidURL "https://".data "URL has no host") ∧
    _normalize_url " Example.com/ ".data =
      .ok (urlunparse ⟨"https".data, pyLower "Example.com".data,
        collapseRootPath ['/'], [], [], []⟩) := by
  refine ⟨C3_normalize_url_algorithm.1 _ (by decide), ?_, ?_, ?_⟩
  · exact C3_normalize_url_algorithm.2.2.2.1 _
      ⟨"javascript".data, "x".data, [], [], [], []⟩ (by decide) (by decide) (by decide)
  · exact C3_normalize_url_algorithm.2.2.2.2.1 _
      ⟨"https".data, [], [], [], [], []⟩ (by decide) (by decide) (by decide) (by decide)
  · exact C3_normalize_url_algorithm.2.2.2.2.2.1 _
      ⟨"https".data, "Example.com".data, ['/'], [], [], []⟩
      (by decide) (by decide) (by decide) (by decide)

theorem find?_append_none {α : Type} {p : α → Bool} {l1 l2 : List α}
    (h : ∀ x ∈ l1, p x = false) : (l1 ++ l2).find? p = l2.find? p := by
  induction l1 with
  | nil => rfl
  | cons a l ih =>
    have ha : p a = false := h a (List.mem_cons_self a l)
    simp only [List.cons_append, List.find?, ha]
    exact ih (fun x hx => h x (List.mem_cons_of_mem a hx))

theorem get_or_create_preserves (s : Store) (n : PyStr) :
    (get_or_create_tag s n).2.bookmarks = s.bookmarks ∧
    (get_or_create_tag s n).2.nextBookmarkId = s.nextBookmarkId ∧
    (get_or_create_tag s n).2.bookmark_tags = s.bookmark_tags := by
  unfold get_or_create_tag
  split <;> simp

theorem add_tag_once_preserves (s : Store) (bid : Nat) (n : PyStr) :
    (add_tag_once s bid n).bookmarks = s.bookmarks ∧
    (add_tag_once s bid n).nextBookmarkId = s.nextBookmarkId := by
  have hp := get_or_create_preserves s n
  unfold add_tag_once
  split
  · exact ⟨hp.1, hp.2.1⟩
  · exact ⟨hp.1, hp.2.1⟩

theorem add_tags_preserves :
    ∀ (names : List PyStr) (s : Store) (bid : Nat),
      (add_tags_to_bookmark s bid names).bookmarks = s.bookmarks ∧
      (add_tags_to_bookmark s bid names).nextBookmarkId = s.nextBookmarkId := by
  intro names
  induction names with
  | nil => intro s bid; exact ⟨rfl, rfl⟩
  | cons n rest ih =>
    intro s bid
    have hstep : add_tags_to_bookmark s bid (n :: rest) =
        add_tags_to_bookmark (add_tag_once s bid n) bid rest := by
      simp only [add_tags_to_bookmark, List.foldl_cons]
    rw [hstep]
    rcases ih (add_tag_once s bid n) bid with ⟨h1, h2⟩
    rw [h1, h2]
    exact add_tag_once_preserves s bid n

/-- Inversion of a successful `add_bookmark`: the URL normalized, no
existing row carried the canonical URL, and the returned bookmark and new
state carry the normalized fields.  The id-bound hypothesis reflects
auto-increment id assignment. -/
theorem add_bookmark_ok_inv {s : Store} {now : Nat} {url title desc : PyStr}
    {tags : Option (List PyStr)} {bm : Bookmark} {s2 : Store}
    (hb : ∀ r ∈ s.bookmarks, r.id < s.nextBookmarkId)
    (h : add_bookmark s now url title desc tags = .ok (bm, s2)) :
    ∃ n : PyStr, _normalize_url url = .ok n ∧
      s.bookmarks.any (fun r => r.url = n) = false ∧
      bm.id = s.nextBookmarkId ∧ bm.url = n ∧
      bm.title = _clean_title (if title = [] then n else title) ∧
      bm.description = (pyStrip desc).take MAX_DESCRIPTION_LENGTH ∧
      bm.created_at = now ∧ bm.updated_at = now ∧
      s2.bookmarks = s.bookmarks ++
        [⟨s.nextBookmarkId, n, _clean_title (if title = [] then n else title),
          (pyStrip desc).take MAX_DESCRIPTION_LENGTH, now, now⟩] ∧
      s2.nextBookmarkId = s.nextBookmarkId + 1 := by
  unfold add_bookmark at h
  split at h
  · exact absurd h (by simp)
  · next n hn =>
    refine ⟨n, hn, ?_⟩
    set ct := _clean_title (if title = [] then n else title) with hct
    set cd := (pyStrip desc).take MAX_DESCRIPTION_LENGTH with hcd
    set nt := _normalize_tags (tags.getD []) with hnt
    by_cases hdup : (s.bookmarks.any (fun r => r.url = n)) = true
    · unfold create_bookmark at h
      simp [hdup] at h
    · have hdup2 : (s.bookmarks.any (fun r => r.url = n)) = false := by
        simpa using hdup
      refine ⟨hdup2, ?_⟩
      unfold create_bookmark at h
      simp only [hdup2, Bool.false_eq_true, if_false] at h
      set r0 : BookmarkRow := ⟨s.nextBookmarkId, n, ct, cd, now, now⟩ with hr0
      set sIns : Store := { s with bookmarks := s.bookmarks ++ [r0],
                                   nextBookmarkId := s.nextBookmarkId + 1 } with hsIns
      split at h
      · injection h with h1
        injection h1 with hbm hs
        subst hbm
        subst hs
        exact ⟨rfl, rfl, rfl, rfl, rfl, rfl, rfl, rfl⟩
      · have hfind : findRow (add_tags_to_bookmark sIns (rowToBookmark sIns r0).id nt)
            ((rowToBookmark sIns r0).id) = some r0 := by
          unfold findRow
          rw [(add_tags_preserves _ _ _).1]
          show (s.bookmarks ++ [r0]).find? (fun r => r.id = r0.id) = some r0
          rw [find?_append_none (fun r hr => by
            simp only [decide_eq_false_iff_not]
            exact Nat.ne_of_lt (hb r hr))]
          simp [List.find?]
        have hget : get_bookmark_by_id
            (add_tags_to_bookmark sIns (rowToBookmark sIns r0).id nt)
            ((rowToBookmark sIns r0).id) =
            .ok (rowToBookmark (add_tags_to_bookmark sIns (rowToBookmark sIns r0).id nt) r0) := by
          unfold get_bookmark_by_id
          rw [hfind]
        rw [hget] at h
        injection h with h1
        injection h1 with hbm hs
        subst hbm
        subst hs
        refine ⟨rfl, rfl, rfl, rfl, rfl, rfl, ?_, ?_⟩
        · rw [(add_tags_preserves _ _ _).1]
        · rw [(add_tags_preserves _ _ _).2]

/-- Store with 1001 bookmark rows, used to exercise the list limit. -/
def C9bigStore : Store :=
  ⟨(List.range 1001).map (fun i => ⟨i + 1, "u".data, [], [], 0, 0⟩), [], [], 1002, 1⟩

/-- C9 (code bug): `MAX_LIST_LIMIT` is declared in `config.py` as the
maximum allowed limit for list operations, but neither the service nor the
repository applies it — listing with `limit = 1001` over 1001 stored
bookmarks returns all 1001 of them. -/
theorem C9_limit_not_clamped :
    (service_list_bookmarks C9bigStore none 1001 0).length = 1001 ∧
    MAX_LIST_LIMIT < 1001 := by
  constructor
  · show (repo_list_bookmarks C9bigStore none 1001 0).length = 1001
    unfold repo_list_bookmarks
    rw [List.length_map, List.length_take, List.drop_zero, sortLe_length]
    simp [C9bigStore]
  · decide

/-- C10 counterexample: a whitespace-only (but nonempty) title is stored as
the empty string, not replaced by the canonical URL —
`add_bookmark("example.com", title=" ")` stores title `""`. -/
theorem C10_counterexample :
    ((add_bookmark Store.empty 0 "example.com".data [' '] [] none).toOption.map
      (fun x => x.1.title)) = some [] ∧
    ((add_bookmark Store.empty 0 "example.com".data [' '] [] none).toOption.map
      (fun x => x.1.title)) ≠ some "https://example.com".data := by
  constructor
  · decide
  · decide

/-- C10 (amended): the canonical-URL fallback applies exactly when the
title argument is the empty string (Python `title or normalized_url`); a
nonempty title that normalizes away (whitespace-only) is stored as the
empty string, not as the URL. -/
theorem C10_empty_title_fallback :
    (∀ (s : Store) (now : Nat) (u d : PyStr) (tg : Option (List PyStr))
       (n : PyStr) (bm : Bookmark) (s2 : Store),
      (∀ r ∈ s.bookmarks, r.id < s.nextBookmarkId) →
      _normalize_url u = .ok n →
      add_bookmark s now u [] d tg = .ok (bm, s2) → bm.title = _clean_title n) ∧
    (∀ (s : Store) (now : Nat) (u title d : PyStr) (tg : Option (List PyStr))
       (bm : Bookmark) (s2 : Store),
      (∀ r ∈ s.bookmarks, r.id < s.nextBookmarkId) →
      title ≠ [] → pyStrip title = [] →
      add_bookmark s now u title d tg = .ok (bm, s2) → bm.title = []) := by
  constructor
  · intro s now u d tg n bm s2 hb hn h
    obtain ⟨n2, hn2, _, _, _, ht, _⟩ := add_bookmark_ok_inv hb h
    rw [hn] at hn2
    cases hn2
    simpa using ht
  · intro s now u title d tg bm s2 hb hne hstrip h
    obtain ⟨n2, _, _, _, _, ht, _⟩ := add_bookmark_ok_inv hb h
    rw [if_neg hne] at ht
    rw [ht, _clean_title, hstrip]
    rfl

/-- Witness for the amended C10: an empty title is replaced by the
canonical URL, a whitespace title is stored empty. -/
theorem C10_empty_title_fallback_witness :
    (⟨1, "https://example.com".data, "https://example.com".data, [], 3, 3, []⟩ :
      Bookmark).title = _clean_title "https://example.com".data ∧
    (⟨1, "https://example.com".data, [], [], 3, 3, []⟩ : Bookmark).title = [] := by
  constructor
  · exact C10_empty_title_fallback.1 Store.empty 3 "example.com".data [] none
      "https://example.com".data
      ⟨1, "https://example.com".data, "https://example.com".data, [], 3, 3, []⟩
      ⟨[⟨1, "https://example.com".data, "https://example.com".data, [], 3, 3⟩], [], [], 2, 1⟩
      (by decide) (by decide) (by decide)
  · exact C10_empty_title_fallback.2 Store.empty 3 "example.com".data [' '] [] none
      ⟨1, "https://example.com".data, [], [], 3, 3, []⟩
      ⟨[⟨1, "https://example.com".data, [], [], 3, 3⟩], [], [], 2, 1⟩
      (by decide) (by decide) (by decide) (by decide)

/-- C8: `import_bookmark` counts a successful add as imported, counts a
`DuplicateBookmarkError` as skipped (recording no error message), records a
failure message for an `InvalidURLError`, and re-raises every other
exception; importing one already-present URL and one new URL yields
`imported = 1, skipped = 1` and no failure messages. -/
theorem C8_import_policy :
    (∀ (s : Store) (now : Nat) (url title desc : PyStr) (tags : Option (List PyStr))
       (res : ImportResult) (bm : Bookmark) (s2 : Store),
      add_bookmark s now url title desc tags = .ok (bm, s2) →
      import_bookmark s now url title desc tags res = .ok (some bm, res.add_success, s2) ∧
      res.add_success.imported = res.imported + 1 ∧ res.add_success.total = res.total + 1 ∧
      res.add_success.skipped = res.skipped ∧ res.add_success.errors = res.errors) ∧
    (∀ (s : Store) (now : Nat) (url title desc : PyStr) (tags : Option (List PyStr))
       (res : ImportResult) (u2 : PyStr),
      add_bookmark s now url title desc tags = .error (.duplicateBookmark u2) →
      import_bookmark s now url title desc tags res = .ok (none, res.add_skip, s) ∧
      res.add_skip.skipped = res.skipped + 1 ∧ res.add_skip.total = res.total + 1 ∧
      res.add_skip.errors = res.errors ∧ res.add_skip.imported = res.imported) ∧
    (∀ (s : Store) (now : Nat) (url title desc : PyStr) (tags : Option (List PyStr))
       (res : ImportResult) (u2 : PyStr) (reason : String),
      add_bookmark s now url title desc tags = .error (.invalidURL u2 reason) →
      import_bookmark s now url title desc tags res =
        .ok (none, res.add_error (invalidUrlMsg url reason), s) ∧
      (res.add_error (invalidUrlMsg url reason)).errors =
        res.errors ++ [invalidUrlMsg url reason] ∧
      (res.add_error (invalidUrlMsg url reason)).total = res.total + 1 ∧
      (res.add_error (invalidUrlMsg url reason)).imported = res.imported ∧
      (res.add_error (invalidUrlMsg url reason)).skipped = res.skipped) ∧
    (∀ (s : Store) (res : ImportResult) (url : PyStr) (e : BMError),
      (∀ u2, e ≠ .duplicateBookmark u2) → (∀ u2 reason, e ≠ .invalidURL u2 reason) →
      import_handle s res url (.error e) = .error e) ∧
    ((import_bookmark ⟨[⟨1, "https://a.com".data, "https://a.com".data, [], 0, 0⟩],
        [], [], 2, 1⟩ 1 "https://a.com".data [] [] none ImportResult.empty).toOption.bind
      (fun x => (import_bookmark x.2.2 2 "https://b.com".data [] [] none
          x.2.1).toOption.map
        (fun y => (y.2.1.imported, y.2.1.skipped, y.2.1.errors.length)))) =
      some (1, 1, 0) := by
  refine ⟨?_, ?_, ?_, ?_, by decide⟩
  · intro s now url title desc tags res bm s2 h
    refine ⟨?_, rfl, rfl, rfl, rfl⟩
    simp [import_bookmark, import_handle, h]
  · intro s now url title desc tags res u2 h
    refine ⟨?_, rfl, rfl, rfl, rfl⟩
    simp [import_bookmark, import_handle, h]
  · intro s now url title desc tags res u2 reason h
    refine ⟨?_, rfl, rfl, rfl, rfl⟩
    simp [import_bookmark, import_handle, h]
  · intro s res url e hdup hinv
    cases e with
    | invalidURL u2 reason => exact absurd rfl (hinv u2 reason)
    | duplicateBookmark u2 => exact absurd rfl (hdup u2)
    | bookmarkNotFound i => rfl
    | databaseError op reason => rfl

/-- Witness for C8 at concrete inputs: a successful import of a fresh URL
into the empty store, and the propagation of a `databaseError`. -/
theorem C8_import_policy_witness :
    import_bookmark Store.empty 0 "https://a.com".data [] [] none ImportResult.empty =
      .ok (some ⟨1, "https://a.com".data, "https://a.com".data, [], 0, 0, []⟩,
        ImportResult.empty.add_success,
        ⟨[⟨1, "https://a.com".data, "https://a.com".data, [], 0, 0⟩], [], [], 2, 1⟩) ∧
    import_handle Store.empty ImportResult.empty "https://a.com".data
      (.error (.databaseError "connection" "disk full")) =
      .error (.databaseError "connection" "disk full") := by
  constructor
  · exact (C8_import_policy.1 Store.empty 0 "https://a.com".data [] [] none
      ImportResult.empty
      ⟨1, "https://a.com".data, "https://a.com".data, [], 0, 0, []⟩
      ⟨[⟨1, "https://a.com".data, "https://a.com".data, [], 0, 0⟩], [], [], 2, 1⟩
      (by decide)).1
  · exact C8_import_policy.2.2.2.1 Store.empty ImportResult.empty "https://a.com".data
      (.databaseError "connection" "disk full")
      (fun u2 => by simp) (fun u2 reason => by simp)

theorem find?_map_presId {l : List BookmarkRow} {bid : Nat} {g : BookmarkRow → BookmarkRow}
    (hg : ∀ r, (g r).id = r.id) :
    (l.map g).find? (fun r => r.id = bid) = (l.find? (fun r => r.id = bid)).map g := by
  induction l with
  | nil => rfl
  | cons a l ih =>
    by_cases h : a.id = bid
    · simp [List.find?, hg, h]
    · simp [List.find?, hg, h, ih]

theorem set_tags_preserves (s : Store) (bid : Nat) (names : List PyStr) :
    (set_tags_for_bookmark s bid names).bookmarks = s.bookmarks ∧
    (set_tags_for_bookmark s bid names).nextBookmarkId = s.nextBookmarkId := by
  unfold set_tags_for_bookmark
  split
  · exact ⟨rfl, rfl⟩
  · constructor
    · rw [(add_tags_preserves _ _ _).1]
      rfl
    · rw [(add_tags_preserves _ _ _).2]
      rfl

/-- Inversion of a successful repository update: the existing row is found,
only title/description change (plus the spec-modelled `updated_at`
refresh), and the rest of the store is untouched. -/
theorem repo_update_ok_inv {s : Store} {now bid : Nat} {title description : Option PyStr}
    {bm0 : Bookmark} {s2 : Store}
    (h : repo_update_bookmark s now bid title description = .ok (bm0, s2)) :
    ∃ r, findRow s bid = some r ∧ r.id = bid ∧
      s2 = updStore s bid (title.getD r.title) (description.getD r.description) now ∧
      s2.tags = s.tags ∧ s2.bookmark_tags = s.bookmark_tags ∧
      s2.nextBookmarkId = s.nextBookmarkId ∧ s2.nextTagId = s.nextTagId ∧
      findRow s2 bid =
        some (patchRow r (title.getD r.title) (description.getD r.description) now) ∧
      bm0 = rowToBookmark s2
        (patchRow r (title.getD r.title) (description.getD r.description) now) := by
  unfold repo_update_bookmark at h
  rcases hr : findRow s bid with _ | r
  · rw [hr] at h
    exact absurd h (by simp)
  · rw [hr] at h
    have hrid : r.id = bid := by simpa using List.find?_some hr
    have hfind2 : findRow (updStore s bid (title.getD r.title)
        (description.getD r.description) now) bid =
        some (patchRow r (title.getD r.title) (description.getD r.description) now) := by
      show (s.bookmarks.map (fun q => if q.id = bid then
          patchRow q (title.getD r.title) (description.getD r.description) now
        else q)).find? (fun q => q.id = bid) =
        some (patchRow r (title.getD r.title) (description.getD r.description) now)
      rw [find?_map_presId (fun q => by
        by_cases hq : q.id = bid
        · simp [hq, patchRow]
        · simp [hq])]
      show (findRow s bid).map (fun q => if q.id = bid then
          patchRow q (title.getD r.title) (description.getD r.description) now
        else q) =
        some (patchRow r (title.getD r.title) (description.getD r.description) now)
      rw [hr]
      simp [hrid]
    have h2 : (match findRow (updStore s bid (title.getD r.title)
          (description.getD r.description) now) bid with
        | none => (Except.error (BMError.bookmarkNotFound bid) :
            Except BMError (Bookmark × Store))
        | some r2 => Except.ok (rowToBookmark (updStore s bid (title.getD r.title)
              (description.getD r.description) now) r2,
            updStore s bid (title.getD r.title)
              (description.getD r.description) now)) = Except.ok (bm0, s2) := h
    rw [hfind2] at h2
    have h3 : (Except.ok (rowToBookmark (updStore s bid (title.getD r.title)
          (description.getD r.description) now)
          (patchRow r (title.getD r.title) (description.getD r.description) now),
        updStore s bid (title.getD r.title) (description.getD r.description) now) :
        Except BMError (Bookmark × Store)) = .ok (bm0, s2) := h2
    injection h3 with h4
    injection h4 with hbm hs
    subst hbm
    subst hs
    exact ⟨r, rfl, hrid, rfl, rfl, rfl, rfl, rfl, hfind2, rfl⟩

/-- C6: every successful `updateBookmark` sets the returned bookmark's
`updated_at` to the mutation time while keeping `created_at`, so whenever
the mutation happens no earlier than creation the returned bookmark
satisfies `created_at ≤ updated_at` with `updated_at` the update time.
(`spec-modelled`: the refresh itself comes from the spec because the schema
file implementing it is absent from the sources.) -/
theorem C6_update_refreshes_timestamp :
    ∀ (s : Store) (now bid : Nat) (t d : Option PyStr) (tg : Option (List PyStr))
      (bm : Bookmark) (s2 : Store),
      service_update_bookmark s now bid t d tg = .ok (bm, s2) →
      bm.updated_at = now ∧
      ∃ r, findRow s bid = some r ∧ bm.created_at = r.created_at ∧
        (r.created_at ≤ now → bm.created_at ≤ bm.updated_at) := by
  intro s now bid t d tg bm s2 h
  unfold service_update_bookmark at h
  rcases hrepo : repo_update_bookmark s now bid (t.map _clean_title)
      (d.map (fun v => (pyStrip v).take MAX_DESCRIPTION_LENGTH)) with e | ⟨bm0, s2m⟩
  · rw [hrepo] at h
    exact absurd h (by simp)
  · rw [hrepo] at h
    obtain ⟨r, hr, hrid, hupd, _, _, _, _, hfind2, hbm0⟩ := repo_update_ok_inv hrepo
    cases tg with
    | none =>
      have h2 : (Except.ok (bm0, s2m) : Except BMError (Bookmark × Store)) = .ok (bm, s2) := h
      injection h2 with h3
      injection h3 with hbm hs
      subst hbm
      subst hs
      subst hbm0
      exact ⟨rfl, r, hr, rfl, fun hle => by simpa using hle⟩
    | some ts =>
      have hfind3 : findRow (set_tags_for_bookmark s2m bid (_normalize_tags ts)) bid =
          some (patchRow r ((t.map _clean_title).getD r.title)
            ((d.map (fun v => (pyStrip v).take MAX_DESCRIPTION_LENGTH)).getD r.description)
            now) := by
        show (set_tags_for_bookmark s2m bid (_normalize_tags ts)).bookmarks.find? _ = _
        rw [(set_tags_preserves _ _ _).1]
        exact hfind2
      have hget : get_bookmark_by_id (set_tags_for_bookmark s2m bid (_normalize_tags ts))
          bid = .ok (rowToBookmark (set_tags_for_bookmark s2m bid (_normalize_tags ts))
            (patchRow r ((t.map _clean_title).getD r.title)
              ((d.map (fun v => (pyStrip v).take MAX_DESCRIPTION_LENGTH)).getD r.description)
              now)) := by
        unfold get_bookmark_by_id
        rw [hfind3]
      have h2 : (match get_bookmark_by_id (set_tags_for_bookmark s2m bid
            (_normalize_tags ts)) bid with
          | Except.error e => (Except.error e : Except BMError (Bookmark × Store))
          | Except.ok bm2 =>
            Except.ok (bm2, set_tags_for_bookmark s2m bid (_normalize_tags ts))) =
          Except.ok (bm, s2) := h
      rw [hget] at h2
      injection h2 with h3
      injection h3 with hbm hs
      subst hbm
      subst hs
      exact ⟨rfl, r, hr, rfl, fun hle => by simpa using hle⟩

/-- Witness for C6: updating the title of a bookmark created at time 5 at
time 9 yields `updated_at = 9 ≥ created_at = 5`. -/
theorem C6_update_refreshes_timestamp_witness :
    (⟨1, "https://x.com".data, "X".data, "D".data, 5, 9, []⟩ : Bookmark).updated_at = 9 ∧
    ∃ r, findRow ⟨[⟨1, "https://x.com".data, "T".data, "D".data, 5, 5⟩], [], [], 2, 1⟩ 1 =
        some r ∧
      (⟨1, "https://x.com".data, "X".data, "D".data, 5, 9, []⟩ : Bookmark).created_at =
        r.created_at ∧
      (r.created_at ≤ 9 →
        (⟨1, "https://x.com".data, "X".data, "D".data, 5, 9, []⟩ : Bookmark).created_at ≤
        (⟨1, "https://x.com".data, "X".data, "D".data, 5, 9, []⟩ : Bookmark).updated_at) :=
  C6_update_refreshes_timestamp
    ⟨[⟨1, "https://x.com".data, "T".data, "D".data, 5, 5⟩], [], [], 2, 1⟩ 9 1
    (some "X".data) none none
    ⟨1, "https://x.com".data, "X".data, "D".data, 5, 9, []⟩
    ⟨[⟨1, "https://x.com".data, "X".data, "D".data, 5, 9⟩], [], [], 2, 1⟩
    (by decide)

/-- C1: once `addBookmark(u)` has succeeded, adding any `v` that normalizes
to the same canonical URL fails with `DuplicateBookmarkError`, and the
observable store state after the failed call (its transaction rolled back)
is exactly the state before it.  (`spec-modelled`: the UNIQUE constraint on
`url` surfacing the duplicate comes from the spec because the schema file
is absent from the sources.) -/
theorem C1_duplicate_rejected :
    ∀ (s : Store) (now : Nat) (u t d : PyStr) (tg : Option (List PyStr))
      (bm : Bookmark) (s1 : Store) (now2 : Nat) (v t2 d2 : PyStr)
      (tg2 : Option (List PyStr)),
      (∀ r ∈ s.bookmarks, r.id < s.nextBookmarkId) →
      add_bookmark s now u t d tg = .ok (bm, s1) →
      _normalize_url v = _normalize_url u →
      runOp s1 (add_bookmark s1 now2 v t2 d2 tg2) =
        (.error (.duplicateBookmark bm.url), s1) := by
  intro s now u t d tg bm s1 now2 v t2 d2 tg2 hb h1 hveq
  obtain ⟨n, hn, hnodup, hid, hurl, htl, hds, hcr, hup, hbooks, hnext⟩ :=
    add_bookmark_ok_inv hb h1
  have hany : s1.bookmarks.any (fun r => r.url = n) = true := by
    rw [hbooks]
    simp
  have hcreate : create_bookmark s1 now2 n (_clean_title (if t2 = [] then n else t2))
      ((pyStrip d2).take MAX_DESCRIPTION_LENGTH) = .error (.duplicateBookmark n) := by
    unfold create_bookmark
    rw [if_pos hany]
  have hsecond : add_bookmark s1 now2 v t2 d2 tg2 = .error (.duplicateBookmark n) := by
    unfold add_bookmark
    rw [hveq, hn]
    simp only [hcreate]
  rw [hurl, hsecond]
  rfl

/-- Witness for C1: after adding `example.com` to the empty store, adding
the normalization-equivalent `HTTPS://Example.com/` fails with
`DuplicateBookmarkError` and leaves the store unchanged. -/
theorem C1_duplicate_rejected_witness :
    runOp ⟨[⟨1, "https://example.com".data, "https://example.com".data, [], 0, 0⟩],
        [], [], 2, 1⟩
      (add_bookmark ⟨[⟨1, "https://example.com".data, "https://example.com".data, [],
          0, 0⟩], [], [], 2, 1⟩ 7 "HTTPS://Example.com/".data [] [] none) =
      (.error (.duplicateBookmark
        (⟨1, "https://example.com".data, "https://example.com".data, [], 0, 0,
          []⟩ : Bookmark).url),
       ⟨[⟨1, "https://example.com".data, "https://example.com".data, [], 0, 0⟩],
        [], [], 2, 1⟩) :=
  C1_duplicate_rejected Store.empty 0 "example.com".data [] [] none
    ⟨1, "https://example.com".data, "https://example.com".data, [], 0, 0, []⟩
    ⟨[⟨1, "https://example.com".data, "https://example.com".data, [], 0, 0⟩], [], [], 2, 1⟩
    7 "HTTPS://Example.com/".data [] [] none
    (by decide) (by decide) (by decide)

/-- Tag-side well-formedness of a store: unique tag ids and names, ids (and
association tag ids) below the auto-increment counter.  These come from the
schema's primary key, UNIQUE name constraint and id assignment. -/
def Store.WFTags (s : Store) : Prop :=
  (s.tags.map (fun t => t.id)).Nodup ∧
  (s.tags.map (fun t => t.name)).Nodup ∧
  (∀ t ∈ s.tags, t.id < s.nextTagId) ∧
  (∀ p ∈ s.bookmark_tags, p.2 < s.nextTagId)

instance (s : Store) : Decidable s.WFTags := by
  unfold Store.WFTags
  infer_instance

theorem find?_append_left {α : Type} {p : α → Bool} {l1 l2 : List α} {x : α}
    (h : l1.find? p = some x) : (l1 ++ l2).find? p = some x := by
  induction l1 with
  | nil => cases h
  | cons a l ih =>
    by_cases ha : p a = true
    · rw [List.find?_cons_of_pos _ ha] at h
      rw [List.cons_append, List.find?_cons_of_pos _ ha]
      exact h
    · have ha2 : p a = false := by simpa using ha
      rw [List.find?_cons_of_neg _ (by simp [ha2])] at h
      rw [List.cons_append, List.find?_cons_of_neg _ (by simp [ha2])]
      exact ih h

theorem find?_tag_id {l : List TagRow} (hids : (l.map (fun t => t.id)).Nodup)
    {t0 : TagRow} (ht : t0 ∈ l) : l.find? (fun t => t.id = t0.id) = some t0 := by
  induction l with
  | nil => cases ht
  | cons a l ih =>
    rcases List.mem_cons.mp ht with heq | hmem
    · subst heq
      rw [List.find?_cons_of_pos _ (by simp)]
    · have ha : a.id ≠ t0.id := by
        intro hcontra
        have : t0.id ∈ l.map (fun t => t.id) := List.mem_map_of_mem _ hmem
        rw [← hcontra] at this
        exact (List.nodup_cons.mp (by simpa using hids)).1 this
      rw [List.find?_cons_of_neg _ (by simp [ha])]
      exact ih (List.nodup_cons.mp (by simpa using hids)).2 hmem

theorem tag_ids_inj {l : List TagRow} (hids : (l.map (fun t => t.id)).Nodup)
    {t1 t2 : TagRow} (h1 : t1 ∈ l) (h2 : t2 ∈ l) (hn : t1.name ≠ t2.name) :
    t1.id ≠ t2.id := by
  intro hid
  have heq := List.inj_on_of_nodup_map hids h1 h2 hid
  exact hn (heq ▸ rfl)

theorem filterMap_congr' {α β : Type} {f g : α → Option β} :
    ∀ l : List α, (∀ a ∈ l, f a = g a) → l.filterMap f = l.filterMap g := by
  intro l
  induction l with
  | nil => intro _; rfl
  | cons a l ih =>
    intro h
    rw [List.filterMap_cons, List.filterMap_cons, h a (List.mem_cons_self a l),
      ih (fun x hx => h x (List.mem_cons_of_mem a hx))]

theorem filterMap_singleton {α β : Type} (f : α → Option β) (a : α) (b : β)
    (h : f a = some b) : [a].filterMap f = [b] := by
  simp [List.filterMap_cons, h]

theorem add_tag_once_spec (s : Store) (bid : Nat) (nm : PyStr)
    (hwf : Store.WFTags s)
    (hfresh : ∀ t ∈ s.tags, t.name = nm → (bid, t.id) ∉ s.bookmark_tags) :
    Store.WFTags (add_tag_once s bid nm) ∧
    assocNames (add_tag_once s bid nm) bid = assocNames s bid ++ [nm] ∧
    (∀ nm' : PyStr, nm' ≠ nm →
      (∀ t ∈ s.tags, t.name = nm' → (bid, t.id) ∉ s.bookmark_tags) →
      (∀ t ∈ (add_tag_once s bid nm).tags, t.name = nm' →
        (bid, t.id) ∉ (add_tag_once s bid nm).bookmark_tags)) := by
  obtain ⟨hids, hnames, htb, hab⟩ := hwf
  rcases hF : s.tags.find? (fun t => t.name = nm) with _ | t0
  · -- tag row does not exist yet: a fresh row with id nextTagId is created
    have hgc : get_or_create_tag s nm =
        ((⟨s.nextTagId, nm⟩ : TagRow),
         { s with tags := s.tags ++ [(⟨s.nextTagId, nm⟩ : TagRow)],
                  nextTagId := s.nextTagId + 1 }) := by
      unfold get_or_create_tag
      rw [hF]
    have hnmem : ∀ t ∈ s.tags, ¬ t.name = nm := by
      intro t ht
      have := List.find?_eq_none.mp hF t ht
      simpa using this
    have hnotin : (bid, s.nextTagId) ∉ s.bookmark_tags := by
      intro hmem
      exact absurd (hab _ hmem) (by simp)
    have hstep : add_tag_once s bid nm =
        { s with tags := s.tags ++ [(⟨s.nextTagId, nm⟩ : TagRow)],
                 bookmark_tags := s.bookmark_tags ++ [(bid, s.nextTagId)],
                 nextTagId := s.nextTagId + 1 } := by
      simp only [add_tag_once, hgc]
      rw [if_neg hnotin]
    rw [hstep]
    refine ⟨⟨?_, ?_, ?_, ?_⟩, ?_, ?_⟩
    · show ((s.tags ++ [(⟨s.nextTagId, nm⟩ : TagRow)]).map (fun t => t.id)).Nodup
      rw [List.map_append]
      refine List.Nodup.append hids (by simp) ?_
      intro a ha hb
      simp only [List.map_cons, List.map_nil, List.mem_singleton] at hb
      subst hb
      rcases List.mem_map.mp ha with ⟨t, ht, hta⟩
      exact absurd ((hta ▸ htb t ht) : s.nextTagId < s.nextTagId) (by simp)
    · show ((s.tags ++ [(⟨s.nextTagId, nm⟩ : TagRow)]).map (fun t => t.name)).Nodup
      rw [List.map_append]
      refine List.Nodup.append hnames (by simp) ?_
      intro a ha hb
      simp only [List.map_cons, List.map_nil, List.mem_singleton] at hb
      subst hb
      rcases List.mem_map.mp ha with ⟨t, ht, hta⟩
      exact hnmem t ht hta
    · intro t ht
      rcases List.mem_append.mp ht with h | h
      · exact Nat.lt_succ_of_lt (htb t h)
      · rw [List.mem_singleton.mp h]
        exact Nat.lt_succ_self _
    · intro p hp
      rcases List.mem_append.mp hp with h | h
      · exact Nat.lt_succ_of_lt (hab p h)
      · rw [List.mem_singleton.mp h]
        exact Nat.lt_succ_self _
    · show ((s.bookmark_tags ++ [(bid, s.nextTagId)]).filter
          (fun p : Nat × Nat => p.1 = bid)).filterMap
          (fun p : Nat × Nat => ((s.tags ++ [(⟨s.nextTagId, nm⟩ : TagRow)]).find?
            (fun t : TagRow => t.id = p.2)).map (fun t : TagRow => t.name)) =
          assocNames s bid ++ [nm]
      rw [List.filter_append, List.filterMap_append]
      have hnew : (s.tags ++ [(⟨s.nextTagId, nm⟩ : TagRow)]).find?
          (fun t : TagRow => t.id = s.nextTagId) = some (⟨s.nextTagId, nm⟩ : TagRow) := by
        rw [find?_append_none (fun t ht => by
          simp only [decide_eq_false_iff_not]
          exact Nat.ne_of_lt (htb t ht))]
        simp [List.find?]
      have hold : (s.bookmark_tags.filter (fun p : Nat × Nat => p.1 = bid)).filterMap
          (fun p : Nat × Nat => ((s.tags ++ [(⟨s.nextTagId, nm⟩ : TagRow)]).find?
            (fun t : TagRow => t.id = p.2)).map (fun t : TagRow => t.name)) =
          assocNames s bid := by
        refine filterMap_congr' _ ?_
        intro p hp
        have hlt : p.2 < s.nextTagId := hab p (List.mem_of_mem_filter hp)
        rcases hF2 : s.tags.find? (fun t : TagRow => t.id = p.2) with _ | tx
        · rw [find?_append_none (fun t ht => by
            simpa using List.find?_eq_none.mp hF2 t ht)]
          have hnone : ([(⟨s.nextTagId, nm⟩ : TagRow)].find?
              (fun t : TagRow => t.id = p.2)) = none := by
            simp [List.find?, Nat.ne_of_gt hlt]
          rw [hnone]
        · rw [find?_append_left hF2]
      rw [hold]
      have hsingle : ([(bid, s.nextTagId)].filter (fun p : Nat × Nat => p.1 = bid)) =
          [(bid, s.nextTagId)] := by
        simp
      rw [hsingle]
      refine congrArg (fun l => assocNames s bid ++ l) ?_
      refine filterMap_singleton _ _ nm ?_
      show ((s.tags ++ [(⟨s.nextTagId, nm⟩ : TagRow)]).find?
          (fun t : TagRow => t.id = (bid, s.nextTagId).2)).map
          (fun t : TagRow => t.name) = some nm
      rw [show ((bid, s.nextTagId).2) = s.nextTagId from rfl]
      rw [hnew]
      rfl
    · intro nm' hne hfresh' t ht htn
      rcases List.mem_append.mp ht with h | h
      · intro hmem
        rcases List.mem_append.mp hmem with h2 | h2
        · exact hfresh' t h htn h2
        · have hid2 : t.id = s.nextTagId := congrArg Prod.snd (List.mem_singleton.mp h2)
          exact absurd (hid2 ▸ htb t h) (by simp)
      · rw [List.mem_singleton.mp h] at htn
        exact absurd htn.symm hne
  · -- tag row already exists: only the association row is inserted
    have hgc : get_or_create_tag s nm = (t0, s) := by
      unfold get_or_create_tag
      rw [hF]
    have ht0mem : t0 ∈ s.tags := List.mem_of_find?_eq_some hF
    have ht0name : t0.name = nm := by simpa using List.find?_some hF
    have hnotin : (bid, t0.id) ∉ s.bookmark_tags := hfresh t0 ht0mem ht0name
    have hstep : add_tag_once s bid nm =
        { s with bookmark_tags := s.bookmark_tags ++ [(bid, t0.id)] } := by
      simp only [add_tag_once, hgc]
      rw [if_neg hnotin]
    rw [hstep]
    refine ⟨⟨hids, hnames, htb, ?_⟩, ?_, ?_⟩
    · intro p hp
      rcases List.mem_append.mp hp with h | h
      · exact hab p h
      · rw [List.mem_singleton.mp h]
        exact htb t0 ht0mem
    · show ((s.bookmark_tags ++ [(bid, t0.id)]).filter
          (fun p : Nat × Nat => p.1 = bid)).filterMap
          (fun p : Nat × Nat => (s.tags.find? (fun t : TagRow => t.id = p.2)).map
            (fun t : TagRow => t.name)) = assocNames s bid ++ [nm]
      rw [List.filter_append, List.filterMap_append]
      have hnew : s.tags.find? (fun t : TagRow => t.id = t0.id) = some t0 :=
        find?_tag_id hids ht0mem
      have hold : (s.bookmark_tags.filter (fun p : Nat × Nat => p.1 = bid)).filterMap
          (fun p : Nat × Nat => (s.tags.find? (fun t : TagRow => t.id = p.2)).map
            (fun t : TagRow => t.name)) = assocNames s bid := rfl
      rw [hold]
      simp [hnew, ht0name]
    · intro nm' hne hfresh' t ht htn
      intro hmem
      rcases List.mem_append.mp hmem with h2 | h2
      · exact hfresh' t ht htn h2
      · have hid2 : t.id = t0.id := congrArg Prod.snd (List.mem_singleton.mp h2)
        exact tag_ids_inj hids ht ht0mem (by rw [htn, ht0name]; exact hne) hid2

theorem add_tags_spec :
    ∀ (names : List PyStr) (s : Store) (bid : Nat),
      Store.WFTags s → names.Nodup →
      (∀ nm ∈ names, ∀ t ∈ s.tags, t.name = nm → (bid, t.id) ∉ s.bookmark_tags) →
      Store.WFTags (add_tags_to_bookmark s bid names) ∧
      assocNames (add_tags_to_bookmark s bid names) bid = assocNames s bid ++ names := by
  intro names
  induction names with
  | nil =>
    intro s bid hwf _ _
    exact ⟨hwf, by simp [add_tags_to_bookmark, assocNames]⟩
  | cons nm rest ih =>
    intro s bid hwf hnd hfresh
    have hstep : add_tags_to_bookmark s bid (nm :: rest) =
        add_tags_to_bookmark (add_tag_once s bid nm) bid rest := by
      simp only [add_tags_to_bookmark, List.foldl_cons]
    obtain ⟨hwf2, hassoc2, hmaint⟩ :=
      add_tag_once_spec s bid nm hwf (hfresh nm (List.mem_cons_self nm rest))
    have hnm_not : nm ∉ rest := (List.nodup_cons.mp hnd).1
    have hfresh2 : ∀ nm' ∈ rest, ∀ t ∈ (add_tag_once s bid nm).tags,
        t.name = nm' → (bid, t.id) ∉ (add_tag_once s bid nm).bookmark_tags := by
      intro nm' hm
      exact hmaint nm' (fun heq => hnm_not (heq ▸ hm))
        (hfresh nm' (List.mem_cons_of_mem nm hm))
    rw [hstep]
    obtain ⟨hwf3, hassoc3⟩ :=
      ih (add_tag_once s bid nm) bid hwf2 (List.nodup_cons.mp hnd).2 hfresh2
    refine ⟨hwf3, ?_⟩
    rw [hassoc3, hassoc2]
    simp

theorem removeAssocs_wfTags (s : Store) (bid : Nat) (hwf : Store.WFTags s) :
    Store.WFTags (removeAssocs s bid) :=
  ⟨hwf.1, hwf.2.1, hwf.2.2.1, fun p hp => hwf.2.2.2 p (List.mem_of_mem_filter hp)⟩

theorem removeAssocs_empty (s : Store) (bid : Nat) :
    assocNames (removeAssocs s bid) bid = [] := by
  unfold assocNames removeAssocs
  have hnil : (s.bookmark_tags.filter (fun p => ¬ p.1 = bid)).filter
      (fun p => p.1 = bid) = [] := by
    apply List.filter_eq_nil.mpr
    intro p hp
    have := (List.mem_filter.mp hp).2
    simpa using this
  show ((s.bookmark_tags.filter (fun p => ¬ p.1 = bid)).filter
      (fun p => p.1 = bid)).filterMap _ = []
  rw [hnil]
  rfl

theorem set_tags_assocNames (s : Store) (bid : Nat) (names : List PyStr)
    (hwf : Store.WFTags s) (hnd : names.Nodup) :
    assocNames (set_tags_for_bookmark s bid names) bid = names := by
  unfold set_tags_for_bookmark
  split
  · next h =>
    rw [h]
    exact removeAssocs_empty s bid
  · next h =>
    have hfresh : ∀ nm ∈ names, ∀ t ∈ (removeAssocs s bid).tags,
        t.name = nm → (bid, t.id) ∉ (removeAssocs s bid).bookmark_tags := by
      intro nm _ t _ _ hmem
      have := (List.mem_filter.mp hmem).2
      simpa using this
    have hspec := add_tags_spec names (removeAssocs s bid) bid
      (removeAssocs_wfTags s bid hwf) hnd hfresh
    rw [hspec.2, removeAssocs_empty s bid]
    rfl

theorem sortStrs_idem (l : List PyStr) : sortStrs (sortStrs l) = sortStrs l :=
  sortLe_eq_of_chainB _ (chainB_sortLe pyStrLe_total l)

theorem normalize_tags_nodup (ts : List PyStr) : (_normalize_tags ts).Nodup :=
  sortLe_nodup (tags_loop_nodup ts [] List.nodup_nil)

theorem get_tag_names_congr {s1 s2 : Store} (bid : Nat)
    (h1 : s2.tags = s1.tags) (h2 : s2.bookmark_tags = s1.bookmark_tags) :
    _get_tag_names_for_bookmark s2 bid = _get_tag_names_for_bookmark s1 bid := by
  unfold _get_tag_names_for_bookmark assocNames
  rw [h1, h2]

/-- C5: `updateBookmark` is a partial patch except for tags — a title-only
update leaves description and tag set unchanged; supplying `tags` (even
`[]`) replaces the entire tag set while leaving title and description
unchanged; omitting `tags` leaves the tags untouched; and updating a
nonexistent id fails with `BookmarkNotFoundError`. -/
theorem C5_update_partial_patch :
    (∀ (s : Store) (now bid : Nat) (ttl : PyStr) (bm0 bm : Bookmark) (s2 : Store),
      get_bookmark_by_id s bid = .ok bm0 →
      service_update_bookmark s now bid (some ttl) none none = .ok (bm, s2) →
      bm.description = bm0.description ∧ bm.tags = bm0.tags ∧
      bm.title = _clean_title ttl) ∧
    (∀ (s : Store) (now bid : Nat) (ts : List PyStr) (bm0 bm : Bookmark) (s2 : Store),
      Store.WFTags s →
      get_bookmark_by_id s bid = .ok bm0 →
      service_update_bookmark s now bid none none (some ts) = .ok (bm, s2) →
      bm.title = bm0.title ∧ bm.description = bm0.description ∧
      bm.tags = _normalize_tags ts) ∧
    (∀ (s : Store) (now bid : Nat) (t d : Option PyStr) (bm0 bm : Bookmark) (s2 : Store),
      get_bookmark_by_id s bid = .ok bm0 →
      service_update_bookmark s now bid t d none = .ok (bm, s2) →
      bm.tags = bm0.tags) ∧
    (∀ (s : Store) (now bid : Nat) (t d : Option PyStr) (tg : Option (List PyStr)),
      findRow s bid = none →
      service_update_bookmark s now bid t d tg = .error (.bookmarkNotFound bid)) := by
  refine ⟨?_, ?_, ?_, ?_⟩
  · -- title-only update
    intro s now bid ttl bm0 bm s2 hget0 h
    unfold service_update_bookmark at h
    rcases hrepo : repo_update_bookmark s now bid ((some ttl).map _clean_title)
        ((none : Option PyStr).map (fun v => (pyStrip v).take MAX_DESCRIPTION_LENGTH))
      with e | ⟨bmr, s2m⟩
    · rw [hrepo] at h
      exact absurd h (by simp)
    · rw [hrepo] at h
      obtain ⟨r, hr, hrid, hupd, htags, hbt, _, _, hfind2, hbmr⟩ := repo_update_ok_inv hrepo
      have h2 : (Except.ok (bmr, s2m) : Except BMError (Bookmark × Store)) = .ok (bm, s2) := h
      injection h2 with h3
      injection h3 with hbm hs
      subst hbm
      subst hs
      subst hbmr
      unfold get_bookmark_by_id at hget0
      rw [hr] at hget0
      have h4 : (Except.ok (rowToBookmark s r) : Except BMError Bookmark) = .ok bm0 := hget0
      injection h4 with h5
      subst h5
      exact ⟨rfl, get_tag_names_congr _ htags hbt, rfl⟩
  · -- tags supplied: full replace
    intro s now bid ts bm0 bm s2 hwfT hget0 h
    unfold service_update_bookmark at h
    rcases hrepo : repo_update_bookmark s now bid ((none : Option PyStr).map _clean_title)
        ((none : Option PyStr).map (fun v => (pyStrip v).take MAX_DESCRIPTION_LENGTH))
      with e | ⟨bmr, s2m⟩
    · rw [hrepo] at h
      exact absurd h (by simp)
    · rw [hrepo] at h
      obtain ⟨r, hr, hrid, hupd, htags, hbt, _, hnt, hfind2, hbmr⟩ := repo_update_ok_inv hrepo
      have hwfT2 : Store.WFTags s2m := by
        refine ⟨?_, ?_, ?_, ?_⟩
        · rw [htags]
          exact hwfT.1
        · rw [htags]
          exact hwfT.2.1
        · rw [htags, hnt]
          exact hwfT.2.2.1
        · rw [hbt, hnt]
          exact hwfT.2.2.2
      unfold get_bookmark_by_id at hget0
      rw [hr] at hget0
      have h4 : (Except.ok (rowToBookmark s r) : Except BMError Bookmark) = .ok bm0 := hget0
      injection h4 with h5
      subst h5
      have hfind3 : findRow (set_tags_for_bookmark s2m bid (_normalize_tags ts)) bid =
          some (patchRow r (((none : Option PyStr).map _clean_title).getD r.title)
            (((none : Option PyStr).map
              (fun v => (pyStrip v).take MAX_DESCRIPTION_LENGTH)).getD r.description)
            now) := by
        show (set_tags_for_bookmark s2m bid (_normalize_tags ts)).bookmarks.find? _ = _
        rw [(set_tags_preserves _ _ _).1]
        exact hfind2
      have hget : get_bookmark_by_id (set_tags_for_bookmark s2m bid (_normalize_tags ts))
          bid = .ok (rowToBookmark (set_tags_for_bookmark s2m bid (_normalize_tags ts))
            (patchRow r (((none : Option PyStr).map _clean_title).getD r.title)
              (((none : Option PyStr).map
                (fun v => (pyStrip v).take MAX_DESCRIPTION_LENGTH)).getD r.description)
              now)) := by
        unfold get_bookmark_by_id
        rw [hfind3]
      have h2 : (match get_bookmark_by_id (set_tags_for_bookmark s2m bid
            (_normalize_tags ts)) bid with
          | Except.error e => (Except.error e : Except BMError (Bookmark × Store))
          | Except.ok bm2 =>
            Except.ok (bm2, set_tags_for_bookmark s2m bid (_normalize_tags ts))) =
          Except.ok (bm, s2) := h
      rw [hget] at h2
      injection h2 with h3
      injection h3 with hbm hs
      subst hbm
      subst hs
      refine ⟨rfl, rfl, ?_⟩
      show _get_tag_names_for_bookmark (set_tags_for_bookmark s2m bid (_normalize_tags ts))
          (patchRow r (((none : Option PyStr).map _clean_title).getD r.title)
            (((none : Option PyStr).map
              (fun v => (pyStrip v).take MAX_DESCRIPTION_LENGTH)).getD r.description)
            now).id = _normalize_tags ts
      rw [show (patchRow r (((none : Option PyStr).map _clean_title).getD r.title)
          (((none : Option PyStr).map
            (fun v => (pyStrip v).take MAX_DESCRIPTION_LENGTH)).getD r.description)
          now).id = r.id from rfl]
      rw [hrid]
      unfold _get_tag_names_for_bookmark
      rw [set_tags_assocNames s2m bid (_normalize_tags ts) hwfT2 (normalize_tags_nodup ts)]
      exact sortStrs_idem (_normalize_tags_loop ts [])
  · -- tags omitted: tags untouched
    intro s now bid t d bm0 bm s2 hget0 h
    unfold service_update_bookmark at h
    rcases hrepo : repo_update_bookmark s now bid (t.map _clean_title)
        (d.map (fun v => (pyStrip v).take MAX_DESCRIPTION_LENGTH))
      with e | ⟨bmr, s2m⟩
    · rw [hrepo] at h
      exact absurd h (by simp)
    · rw [hrepo] at h
      obtain ⟨r, hr, hrid, hupd, htags, hbt, _, _, hfind2, hbmr⟩ := repo_update_ok_inv hrepo
      have h2 : (Except.ok (bmr, s2m) : Except BMError (Bookmark × Store)) = .ok (bm, s2) := h
      injection h2 with h3
      injection h3 with hbm hs
      subst hbm
      subst hs
      subst hbmr
      unfold get_bookmark_by_id at hget0
      rw [hr] at hget0
      have h4 : (Except.ok (rowToBookmark s r) : Except BMError Bookmark) = .ok bm0 := hget0
      injection h4 with h5
      subst h5
      exact get_tag_names_congr _ htags hbt
  · -- nonexistent id
    intro s now bid t d tg hnone
    unfold service_update_bookmark
    have hrepo : repo_update_bookmark s now bid (t.map _clean_title)
        (d.map (fun v => (pyStrip v).take MAX_DESCRIPTION_LENGTH)) =
        .error (.bookmarkNotFound bid) := by
      unfold repo_update_bookmark
      rw [hnone]
    rw [hrepo]

/-- Witness for C5: on a store with one bookmark carrying tag `python`, a
title-only update keeps description `"D"` and tags `["python"]`; an update
with `tags=[]` keeps title `"T"` and clears the tags; and updating id 2
fails with `BookmarkNotFoundError`. -/
theorem C5_update_partial_patch_witness :
    ((⟨1, "https://x.com".data, "X".data, "D".data, 5, 9,
        ["python".data]⟩ : Bookmark).description =
      (⟨1, "https://x.com".data, "T".data, "D".data, 5, 5,
        ["python".data]⟩ : Bookmark).description ∧
     (⟨1, "https://x.com".data, "X".data, "D".data, 5, 9,
        ["python".data]⟩ : Bookmark).tags =
      (⟨1, "https://x.com".data, "T".data, "D".data, 5, 5,
        ["python".data]⟩ : Bookmark).tags ∧
     (⟨1, "https://x.com".data, "X".data, "D".data, 5, 9,
        ["python".data]⟩ : Bookmark).title = _clean_title "X".data) ∧
    ((⟨1, "https://x.com".data, "T".data, "D".data, 5, 9, []⟩ : Bookmark).title =
      (⟨1, "https://x.com".data, "T".data, "D".data, 5, 5,
        ["python".data]⟩ : Bookmark).title ∧
     (⟨1, "https://x.com".data, "T".data, "D".data, 5, 9, []⟩ : Bookmark).description =
      (⟨1, "https://x.com".data, "T".data, "D".data, 5, 5,
        ["python".data]⟩ : Bookmark).description ∧
     (⟨1, "https://x.com".data, "T".data, "D".data, 5, 9, []⟩ : Bookmark).tags =
      _normalize_tags []) ∧
    service_update_bookmark ⟨[⟨1, "https://x.com".data, "T".data, "D".data, 5, 5⟩],
      [⟨1, "python".data⟩], [(1, 1)], 2, 2⟩ 9 2 (some "X".data) none none =
      .error (.bookmarkNotFound 2) := by
  refine ⟨?_, ?_, ?_⟩
  · exact C5_update_partial_patch.1
      ⟨[⟨1, "https://x.com".data, "T".data, "D".data, 5, 5⟩], [⟨1, "python".data⟩],
        [(1, 1)], 2, 2⟩ 9 1 "X".data
      ⟨1, "https://x.com".data, "T".data, "D".data, 5, 5, ["python".data]⟩
      ⟨1, "https://x.com".data, "X".data, "D".data, 5, 9, ["python".data]⟩
      ⟨[⟨1, "https://x.com".data, "X".data, "D".data, 5, 9⟩], [⟨1, "python".data⟩],
        [(1, 1)], 2, 2⟩
      (by decide) (by decide)
  · exact C5_update_partial_patch.2.1
      ⟨[⟨1, "https://x.com".data, "T".data, "D".data, 5, 5⟩], [⟨1, "python".data⟩],
        [(1, 1)], 2, 2⟩ 9 1 []
      ⟨1, "https://x.com".data, "T".data, "D".data, 5, 5, ["python".data]⟩
      ⟨1, "https://x.com".data, "T".data, "D".data, 5, 9, []⟩
      ⟨[⟨1, "https://x.com".data, "T".data, "D".data, 5, 9⟩], [⟨1, "python".data⟩],
        [], 2, 2⟩
      (by decide) (by decide) (by decide)
  · exact C5_update_partial_patch.2.2.2
      ⟨[⟨1, "https://x.com".data, "T".data, "D".data, 5, 5⟩], [⟨1, "python".data⟩],
        [(1, 1)], 2, 2⟩ 9 2 (some "X".data) none none (by decide)

/-- C7 counterexample: adding a bookmark with tag `python` and then
deleting it (the only bookmark carrying the tag) leaves `list_all_tags`
returning the tag with count 0 — the LEFT JOIN does not exclude zero-count
tags, so the tag does not disappear from the listing. -/
theorem C7_counterexample :
    ((add_bookmark Store.empty 0 "https://x.com".data [] []
        (some ["python".data])).toOption.bind
      (fun x => (delete_bookmark x.2 1).toOption.map list_all_tags)) =
      some [⟨"python".data, 0⟩] ∧
    ¬ (∀ tc ∈ ([⟨"python".data, 0⟩] : List TagCount), 0 < tc.count) := by
  constructor
  · decide
  · decide

/-- C7 (amended): `list_all_tags` returns every row of the `tags` table
paired with its association count — including tags whose count is zero —
ordered by count descending then name ascending; consequently, after
deleting the only bookmark carrying a tag, the tag is still listed, with
count 0. -/
theorem C7_list_all_tags :
    (∀ s : Store, ChainB tagCountLe (list_all_tags s) ∧
      (list_all_tags s).Perm
        (s.tags.map (fun t => ⟨t.name, tagBookmarkCount s t.id⟩))) ∧
    ((add_bookmark Store.empty 0 "https://x.com".data [] []
        (some ["python".data])).toOption.bind
      (fun x => (delete_bookmark x.2 1).toOption.map list_all_tags)) =
      some [⟨"python".data, 0⟩] := by
  constructor
  · intro s
    exact ⟨chainB_sortLe tagCountLe_total _, sortLe_perm _⟩
  · decide

/-- Witness for C7 on a concrete store with a used and an orphan tag. -/
theorem C7_list_all_tags_witness :
    ChainB tagCountLe (list_all_tags ⟨[⟨1, "u".data, [], [], 0, 0⟩],
      [⟨1, "python".data⟩, ⟨2, "lean".data⟩], [(1, 1)], 2, 3⟩) ∧
    (list_all_tags ⟨[⟨1, "u".data, [], [], 0, 0⟩],
      [⟨1, "python".data⟩, ⟨2, "lean".data⟩], [(1, 1)], 2, 3⟩).Perm
      ((⟨[⟨1, "u".data, [], [], 0, 0⟩],
        [⟨1, "python".data⟩, ⟨2, "lean".data⟩], [(1, 1)], 2, 3⟩ : Store).tags.map
        (fun t => ⟨t.name, tagBookmarkCount ⟨[⟨1, "u".data, [], [], 0, 0⟩],
          [⟨1, "python".data⟩, ⟨2, "lean".data⟩], [(1, 1)], 2, 3⟩ t.id⟩)) :=
  C7_list_all_tags.1 ⟨[⟨1, "u".data, [], [], 0, 0⟩],
    [⟨1, "python".data⟩, ⟨2, "lean".data⟩], [(1, 1)], 2, 3⟩

theorem char_toNat_inj {a b : Char} (h : a.toNat = b.toNat) : a = b := by
  apply Char.eq_of_val_eq
  exact UInt32.ext h

theorem char_ofNat_toNat {n : Nat} (h : n < 55296) : (Char.ofNat n).toNat = n := by
  have hv : n.isValidChar := Or.inl h
  rw [Char.ofNat, dif_pos hv]
  rfl

theorem pyLowerChar_toNat (c : Char) :
    (pyLowerChar c).toNat =
      if 65 ≤ c.toNat ∧ c.toNat ≤ 90 then c.toNat + 32 else c.toNat := by
  unfold pyLowerChar
  split
  · next h => exact char_ofNat_toNat (by omega)
  · rfl

theorem pyLowerChar_idem (c : Char) : pyLowerChar (pyLowerChar c) = pyLowerChar c := by
  apply char_toNat_inj
  rw [pyLowerChar_toNat, pyLowerChar_toNat c]
  split <;> first
  | omega
  | (split <;> omega)

theorem pyLower_idem (l : PyStr) : pyLower (pyLower l) = pyLower l := by
  unfold pyLower
  rw [List.map_map]
  exact List.map_congr_left (fun c _ => pyLowerChar_idem c)

theorem pyLowerChar_not_delim {c : Char} (h : isNetlocDelim c = false) :
    isNetlocDelim (pyLowerChar c) = false := by
  have ht := pyLowerChar_toNat c
  simp only [isNetlocDelim, Bool.or_eq_false_iff, decide_eq_false_iff_not] at h ⊢
  obtain ⟨⟨h1, h2⟩, h3⟩ := h
  refine ⟨⟨?_, ?_⟩, ?_⟩ <;> (rw [ht]; split <;> omega)

theorem mem_pyLower_iff {d : Char} (h1 : ¬(97 ≤ d.toNat ∧ d.toNat ≤ 122))
    (h2 : ¬(65 ≤ d.toNat ∧ d.toNat ≤ 90)) (l : PyStr) : d ∈ pyLower l ↔ d ∈ l := by
  constructor
  · intro h
    rcases List.mem_map.mp h with ⟨c, hc, hlc⟩
    have hnat := congrArg Char.toNat hlc
    rw [pyLowerChar_toNat] at hnat
    have hcd : c.toNat = d.toNat := by
      split at hnat <;> omega
    rw [char_toNat_inj hcd] at hc
    exact hc
  · intro h
    have hfix : pyLowerChar d = d := by
      unfold pyLowerChar
      rw [if_neg h2]
    rw [← hfix]
    exact List.mem_map_of_mem _ h

/-- Characters removed everywhere by CPython `urlsplit` (`\t` = 9,
`\r` = 13, `\n` = 10). -/
def noUnsafe (l : PyStr) : Prop :=
  ∀ c ∈ l, ¬(c = '\t' ∨ c = '\r' ∨ c = '\n')

theorem noUnsafe_removeUnsafe (l : PyStr) : noUnsafe (removeUnsafe l) := by
  intro c hc
  have := (List.mem_filter.mp hc).2
  simpa using this

theorem removeUnsafe_eq_self {l : PyStr} (h : noUnsafe l) : removeUnsafe l = l := by
  unfold removeUnsafe
  apply List.filter_eq_self.mpr
  intro a ha
  simpa using h a ha

theorem noUnsafe_append {l1 l2 : PyStr} (h1 : noUnsafe l1) (h2 : noUnsafe l2) :
    noUnsafe (l1 ++ l2) := by
  intro c hc
  rcases List.mem_append.mp hc with h | h
  · exact h1 c h
  · exact h2 c h

theorem noUnsafe_cons {c : Char} {l : PyStr} (hc : ¬(c = '\t' ∨ c = '\r' ∨ c = '\n'))
    (h : noUnsafe l) : noUnsafe (c :: l) := by
  intro x hx
  rcases List.mem_cons.mp hx with h2 | h2
  · rw [h2]
    exact hc
  · exact h x h2

theorem noUnsafe_sub {l1 l2 : PyStr} (hsub : ∀ c ∈ l1, c ∈ l2) (h : noUnsafe l2) :
    noUnsafe l1 :=
  fun c hc => h c (hsub c hc)

theorem noUnsafe_pyLower {l : PyStr} (h : noUnsafe l) : noUnsafe (pyLower l) := by
  intro d hd
  rcases List.mem_map.mp hd with ⟨c, hc, hlc⟩
  have hcn := h c hc
  intro habs
  have hdn : d.toNat = 9 ∨ d.toNat = 13 ∨ d.toNat = 10 := by
    rcases habs with h | h | h <;> (rw [h]; simp)
  have := congrArg Char.toNat hlc
  rw [pyLowerChar_toNat] at this
  have hcn2 : ¬(c.toNat = 9 ∨ c.toNat = 13 ∨ c.toNat = 10) := by
    intro hor
    apply hcn
    rcases hor with h | h | h
    · exact Or.inl (char_toNat_inj (by rw [h]; rfl))
    · exact Or.inr (Or.inl (char_toNat_inj (by rw [h]; rfl)))
    · exact Or.inr (Or.inr (char_toNat_inj (by rw [h]; rfl)))
  split at this <;> omega

theorem splitFirst_eq_some {c : Char} :
    ∀ {s a b : PyStr}, splitFirst c s = (a, some b) → s = a ++ c :: b ∧ c ∉ a := by
  intro s
  induction s with
  | nil => intro a b h; cases h
  | cons x t ih =>
    intro a b h
    by_cases hx : x = c
    · subst hx
      rw [splitFirst, if_pos rfl] at h
      injection h with h1 h2
      injection h2 with h2
      subst h1
      subst h2
      exact ⟨rfl, by simp⟩
    · rw [splitFirst, if_neg hx] at h
      injection h with h1 h2
      rcases hsf : splitFirst c t with ⟨a0, r0⟩
      rw [hsf] at h1 h2
      cases r0 with
      | none => cases h2
      | some b0 =>
        injection h2 with h2
        subst h2
        subst h1
        obtain ⟨he, hn⟩ := ih hsf
        constructor
        · rw [List.cons_append, ← he]
        · intro hmem
          rcases List.mem_cons.mp hmem with h3 | h3
          · exact hx h3.symm
          · exact hn h3

theorem splitFirst_eq_none {c : Char} :
    ∀ {s a : PyStr}, splitFirst c s = (a, none) → a = s ∧ c ∉ s := by
  intro s
  induction s with
  | nil =>
    intro a h
    injection h with h1 _
    subst h1
    exact ⟨rfl, by simp⟩
  | cons x t ih =>
    intro a h
    by_cases hx : x = c
    · subst hx
      rw [splitFirst, if_pos rfl] at h
      injection h with _ h2
      cases h2
    · rw [splitFirst, if_neg hx] at h
      injection h with h1 h2
      rcases hsf : splitFirst c t with ⟨a0, r0⟩
      rw [hsf] at h1 h2
      cases r0 with
      | some b0 => cases h2
      | none =>
        subst h1
        obtain ⟨he, hn⟩ := ih hsf
        subst he
        refine ⟨rfl, ?_⟩
        intro hmem
        rcases List.mem_cons.mp hmem with h3 | h3
        · exact hx h3.symm
        · exact hn h3

theorem splitFirst_append {c : Char} :
    ∀ {a : PyStr} (b : PyStr), c ∉ a → splitFirst c (a ++ c :: b) = (a, some b) := by
  intro a
  induction a with
  | nil =>
    intro b _
    rw [List.nil_append, splitFirst, if_pos rfl]
  | cons x t ih =>
    intro b h
    have hx : ¬ x = c := fun hc => h (hc ▸ List.mem_cons_self x t)
    rw [List.cons_append, splitFirst, if_neg hx,
      ih b (fun hm => h (List.mem_cons_of_mem x hm))]

theorem splitFirst_not_mem {c : Char} :
    ∀ {s : PyStr}, c ∉ s → splitFirst c s = (s, none) := by
  intro s
  induction s with
  | nil => intro _; rfl
  | cons x t ih =>
    intro h
    have hx : ¬ x = c := fun hc => h (hc ▸ List.mem_cons_self x t)
    rw [splitFirst, if_neg hx, ih (fun hm => h (List.mem_cons_of_mem x hm))]

theorem mem_takeWhile {p : Char → Bool} :
    ∀ {l : PyStr} {x : Char}, x ∈ l.takeWhile p → p x = true := by
  intro l
  induction l with
  | nil => intro x h; cases h
  | cons a t ih =>
    intro x h
    rw [List.takeWhile_cons] at h
    by_cases ha : p a = true
    · rw [if_pos ha] at h
      rcases List.mem_cons.mp h with h2 | h2
      · rw [h2]
        exact ha
      · exact ih h2
    · rw [if_neg ha] at h
      cases h

theorem head_dropWhile {p : Char → Bool} :
    ∀ {l : PyStr} {y : Char}, (l.dropWhile p).head? = some y → p y = false := by
  intro l
  induction l with
  | nil => intro y h; cases h
  | cons a t ih =>
    intro y h
    rw [List.dropWhile_cons] at h
    by_cases ha : p a = true
    · rw [if_pos ha] at h
      exact ih h
    · rw [if_neg ha] at h
      injection h with h2
      subst h2
      simpa using ha

theorem mem_dropWhile {p : Char → Bool} {l : PyStr} {x : Char}
    (h : x ∈ l.dropWhile p) : x ∈ l := by
  have := @List.takeWhile_append_dropWhile _ p l
  rw [← this]
  exact List.mem_append_right _ h

theorem mem_takeWhile_mem {p : Char → Bool} {l : PyStr} {x : Char}
    (h : x ∈ l.takeWhile p) : x ∈ l := by
  have := @List.takeWhile_append_dropWhile _ p l
  rw [← this]
  exact List.mem_append_left _ h

theorem takeWhile_append_exact {p : Char → Bool} :
    ∀ {a b : PyStr}, (∀ x ∈ a, p x = true) →
      (b = [] ∨ ∀ h, b.head? = some h → p h = false) →
      (a ++ b).takeWhile p = a ∧ (a ++ b).dropWhile p = b := by
  intro a
  induction a with
  | nil =>
    intro b _ hb
    rcases hb with h | h
    · subst h
      exact ⟨rfl, rfl⟩
    · cases b with
      | nil => exact ⟨rfl, rfl⟩
      | cons y t =>
        have := h y rfl
        rw [List.nil_append, List.takeWhile_cons, List.dropWhile_cons]
        rw [if_neg (by simp [this]), if_neg (by simp [this])]
        exact ⟨rfl, rfl⟩
  | cons x t ih =>
    intro b ha hb
    have hx : p x = true := ha x (List.mem_cons_self x t)
    rw [List.cons_append, List.takeWhile_cons, List.dropWhile_cons,
      if_pos hx, if_pos hx]
    obtain ⟨h1, h2⟩ := ih (fun y hy => ha y (List.mem_cons_of_mem x hy)) hb
    exact ⟨by rw [h1], h2⟩

theorem splitLastSlash_append :
    ∀ {a : PyStr} (b : PyStr), '/' ∉ b → splitLastSlash (a ++ '/' :: b) = some (a, b) := by
  intro a
  induction a with
  | nil =>
    intro b hb
    rw [List.nil_append, splitLastSlash]
    have hnone : splitLastSlash b = none := by
      induction b with
      | nil => rfl
      | cons y t ihb =>
        rw [splitLastSlash]
        have hy : ¬ y = '/' := fun hc => hb (hc ▸ List.mem_cons_self y t)
        rw [ihb (fun hm => hb (List.mem_cons_of_mem y hm))]
        rw [if_neg hy]
    rw [hnone]
    simp
  | cons x t ih =>
    intro b hb
    rw [List.cons_append, splitLastSlash, ih b hb]

theorem splitLastSlash_eq_some :
    ∀ {s a b : PyStr}, splitLastSlash s = some (a, b) → s = a ++ '/' :: b ∧ '/' ∉ b := by
  intro s
  induction s with
  | nil => intro a b h; cases h
  | cons x t ih =>
    intro a b h
    rw [splitLastSlash] at h
    rcases hsl : splitLastSlash t with _ | ⟨a0, b0⟩
    · rw [hsl] at h
      by_cases hx : x = '/'
      · rw [if_pos hx] at h
        injection h with h2
        injection h2 with h3 h4
        subst h3
        subst h4
        subst hx
        refine ⟨rfl, ?_⟩
        intro hmem
        have hnone : ∀ u : PyStr, splitLastSlash u = none → '/' ∉ u := by
          intro u
          induction u with
          | nil => intro _ hm; cases hm
          | cons y v ihu =>
            intro hu hm
            rw [splitLastSlash] at hu
            rcases hv : splitLastSlash v with _ | p0
            · rw [hv] at hu
              by_cases hy : y = '/'
              · rw [if_pos hy] at hu
                cases hu
              · rw [if_neg hy] at hu
                rcases List.mem_cons.mp hm with h5 | h5
                · exact hy h5.symm
                · exact ihu hv h5
            · rw [hv] at hu
              cases hu
        exact hnone t hsl hmem
      · rw [if_neg hx] at h
        cases h
    · rw [hsl] at h
      injection h with h2
      injection h2 with h3 h4
      subst h3
      subst h4
      obtain ⟨he, hn⟩ := ih hsl
      exact ⟨by rw [List.cons_append, ← he], hn⟩

theorem splitLastSlash_eq_none :
    ∀ {s : PyStr}, splitLastSlash s = none → '/' ∉ s := by
  intro s
  induction s with
  | nil => intro _ hm; cases hm
  | cons x t ih =>
    intro h hm
    rw [splitLastSlash] at h
    rcases hsl : splitLastSlash t with _ | p0
    · rw [hsl] at h
      by_cases hx : x = '/'
      · rw [if_pos hx] at h
        cases h
      · rw [if_neg hx] at h
        rcases List.mem_cons.mp hm with h2 | h2
        · exact hx h2.symm
        · exact ih hsl h2
    · rw [hsl] at h
      cases h

/-- Shape invariant of a parsed path: its final `/`-separated segment
contains no `;` (so `_splitparams` leaves it unsplit). -/
def SegOK (P : PyStr) : Prop :=
  P = [] ∨ ∃ A B, P = A ++ '/' :: B ∧ '/' ∉ B ∧ ';' ∉ B

theorem splitparams_spec (path0 : PyStr)
    (hshape0 : path0 = [] ∨ ∃ t, path0 = '/' :: t) :
    (∀ c ∈ (splitparams path0).1, c ∈ path0) ∧
    (∀ c ∈ (splitparams path0).2, c ∈ path0) ∧
    '/' ∉ (splitparams path0).2 ∧
    SegOK (splitparams path0).1 ∧
    ((splitparams path0).1 = [] ∨ ∃ t, (splitparams path0).1 = '/' :: t) := by
  by_cases hsemi : ';' ∈ path0
  · rcases hsl : splitLastSlash path0 with _ | ⟨a, b⟩
    · have hns : '/' ∉ path0 := splitLastSlash_eq_none hsl
      rcases hshape0 with h | ⟨t, h⟩
      · subst h
        cases hsemi
      · subst h
        exact absurd (List.mem_cons_self '/' t) hns
    · obtain ⟨hpeq, hnb⟩ := splitLastSlash_eq_some hsl
      rcases hsf : splitFirst ';' b with ⟨b1, r⟩
      cases r with
      | none =>
        obtain ⟨hb1, hnsb⟩ := splitFirst_eq_none hsf
        have hval : splitparams path0 = (path0, []) := by
          unfold splitparams
          rw [if_pos hsemi, hsl]
          show (match splitFirst ';' b with
            | (c1, some c2) => (a ++ '/' :: c1, c2)
            | (_, none) => (path0, [])) = (path0, [])
          rw [hsf]
        rw [hval]
        refine ⟨fun c hc => hc, ?_, ?_, ?_, hshape0⟩
        · intro c hc
          cases hc
        · intro hmem
          cases hmem
        · exact Or.inr ⟨a, b, hpeq, hnb, hnsb⟩
      | some b2 =>
        obtain ⟨hbeq, hnsb1⟩ := splitFirst_eq_some hsf
        have hval : splitparams path0 = (a ++ '/' :: b1, b2) := by
          unfold splitparams
          rw [if_pos hsemi, hsl]
          show (match splitFirst ';' b with
            | (c1, some c2) => (a ++ '/' :: c1, c2)
            | (_, none) => (path0, [])) = (a ++ '/' :: b1, b2)
          rw [hsf]
        rw [hval]
        have hsub_b : ∀ c ∈ b, c ∈ path0 := by
          intro c hc
          rw [hpeq]
          exact List.mem_append_right _ (List.mem_cons_of_mem _ hc)
        refine ⟨?_, ?_, ?_, ?_, ?_⟩
        · intro c hc
          rw [hpeq]
          rcases List.mem_append.mp hc with h | h
          · exact List.mem_append_left _ h
          · rcases List.mem_cons.mp h with h2 | h2
            · exact List.mem_append_right _ (h2 ▸ List.mem_cons_self '/' b)
            · refine List.mem_append_right _ (List.mem_cons_of_mem _ ?_)
              rw [hbeq]
              exact List.mem_append_left _ h2
        · intro c hc
          refine hsub_b c ?_
          rw [hbeq]
          exact List.mem_append_right _ (List.mem_cons_of_mem _ hc)
        · intro hmem
          apply hnb
          rw [hbeq]
          exact List.mem_append_right _ (List.mem_cons_of_mem _ hmem)
        · refine Or.inr ⟨a, b1, rfl, ?_, hnsb1⟩
          intro hmem
          apply hnb
          rw [hbeq]
          exact List.mem_append_left _ hmem
        · cases a with
          | nil => exact Or.inr ⟨b1, rfl⟩
          | cons c a2 =>
            rcases hshape0 with h | ⟨t, h⟩
            · rw [h] at hpeq
              cases hpeq
            · rw [h] at hpeq
              have hc : c = '/' := by
                have := congrArg List.head? hpeq
                simpa using this.symm
              subst hc
              exact Or.inr ⟨a2 ++ '/' :: b1, rfl⟩
  · have hval : splitparams path0 = (path0, []) := by
      unfold splitparams
      rw [if_neg hsemi]
    rw [hval]
    refine ⟨fun c hc => hc, ?_, ?_, ?_, hshape0⟩
    · intro c hc
      cases hc
    · intro hmem
      cases hmem
    rcases hshape0 with h | ⟨t, h⟩
    · exact Or.inl h
    · rcases hsl : splitLastSlash path0 with _ | ⟨a, b⟩
      · have hns : '/' ∉ path0 := splitLastSlash_eq_none hsl
        subst h
        exact absurd (List.mem_cons_self '/' t) hns
      · obtain ⟨hpeq, hnb⟩ := splitLastSlash_eq_some hsl
        refine Or.inr ⟨a, b, hpeq, hnb, ?_⟩
        intro hmem
        apply hsemi
        rw [hpeq]
        exact List.mem_append_right _ (List.mem_cons_of_mem _ hmem)

theorem splitparams_reassemble (P par : PyStr)
    (hshape : P = [] ∨ ∃ t, P = '/' :: t)
    (hseg : SegOK P)
    (hpar : '/' ∉ par) :
    (par = [] → splitparams (prepSlash (withParams P par)) = (P, [])) ∧
    (par ≠ [] → splitparams (prepSlash (withParams P par)) =
      ((if P = [] then ['/'] else P), par)) := by
  constructor
  · intro hp
    subst hp
    rw [withParams, if_pos rfl]
    have hprep : prepSlash P = P := by
      unfold prepSlash
      rcases hshape with h | ⟨t, h⟩
      · subst h
        rw [if_neg (by simp)]
      · subst h
        rw [if_neg (by simp)]
    rw [hprep]
    by_cases hsemi : ';' ∈ P
    · rcases hseg with h | ⟨A, B, hPeq, hB1, hB2⟩
      · subst h
        cases hsemi
      · unfold splitparams
        rw [if_pos hsemi, hPeq, splitLastSlash_append B hB1]
        show (match splitFirst ';' B with
          | (c1, some c2) => (A ++ '/' :: c1, c2)
          | (_, none) => (A ++ '/' :: B, [])) = (A ++ '/' :: B, [])
        rw [splitFirst_not_mem hB2]
    · unfold splitparams
      rw [if_neg hsemi]
  · intro hp
    rw [withParams, if_neg hp]
    rcases hshape with h | ⟨t, h⟩
    · subst h
      rw [if_pos rfl]
      have hprep : prepSlash ([] ++ ';' :: par) = '/' :: ';' :: par := by
        unfold prepSlash
        rw [if_pos (by simp)]
        simp
      rw [hprep]
      have hsl : splitLastSlash ('/' :: ';' :: par) = some ([], ';' :: par) := by
        have hh := @splitLastSlash_append [] (';' :: par) (by
          intro hmem
          rcases List.mem_cons.mp hmem with h2 | h2
          · cases h2
          · exact hpar h2)
        simpa using hh
      unfold splitparams
      rw [if_pos (by simp), hsl]
      show (match splitFirst ';' (';' :: par) with
        | (c1, some c2) => ([] ++ '/' :: c1, c2)
        | (_, none) => ('/' :: ';' :: par, [])) = (['/'], par)
      rw [show splitFirst ';' (';' :: par) = ([], some par) from by
        rw [splitFirst, if_pos rfl]]
      simp
    · have hPne : ¬ P = [] := by
        rw [h]
        simp
      rw [if_neg hPne]
      have hprep : prepSlash (P ++ ';' :: par) = P ++ ';' :: par := by
        unfold prepSlash
        rw [if_neg (by
          rw [h]
          simp)]
      rw [hprep]
      rcases hseg with hcase | ⟨A, B, hPeq, hB1, hB2⟩
      · exact absurd hcase hPne
      · have hBpar : '/' ∉ B ++ ';' :: par := by
          intro hmem
          rcases List.mem_append.mp hmem with h2 | h2
          · exact hB1 h2
          · rcases List.mem_cons.mp h2 with h3 | h3
            · cases h3
            · exact hpar h3
        have heq2 : P ++ ';' :: par = A ++ '/' :: (B ++ ';' :: par) := by
          rw [hPeq]
          simp
        unfold splitparams
        rw [if_pos (List.mem_append_right _ (List.mem_cons_self ';' par)),
          heq2, splitLastSlash_append _ hBpar]
        show (match splitFirst ';' (B ++ ';' :: par) with
          | (c1, some c2) => (A ++ '/' :: c1, c2)
          | (_, none) => (A ++ '/' :: (B ++ ';' :: par), [])) = (P, par)
        rw [splitFirst_append par hB2]
        show (A ++ '/' :: B, par) = (P, par)
        rw [hPeq]

theorem splitScheme_snd_sub (s : PyStr) : ∀ c ∈ (splitScheme s).2, c ∈ s := by
  rcases hsf : splitFirst ':' s with ⟨before, ro⟩
  cases ro with
  | none =>
    have hval : splitScheme s = ([], s) := by
      unfold splitScheme
      rw [hsf]
    rw [hval]
    exact fun c hc => hc
  | some after =>
    cases before with
    | nil =>
      have hval : splitScheme s = ([], s) := by
        unfold splitScheme
        rw [hsf]
      rw [hval]
      exact fun c hc => hc
    | cons c0 rest =>
      obtain ⟨hseq, _⟩ := splitFirst_eq_some hsf
      by_cases hcond : isAsciiAlpha c0 ∧ (c0 :: rest).all isSchemeChar
      · have hval : splitScheme s = (pyLower (c0 :: rest), after) := by
          unfold splitScheme
          rw [hsf]
          show (if isAsciiAlpha c0 ∧ (c0 :: rest).all isSchemeChar
            then (pyLower (c0 :: rest), after) else ([], s)) = (pyLower (c0 :: rest), after)
          rw [if_pos hcond]
        rw [hval]
        intro c hc
        rw [hseq]
        exact List.mem_append_right _ (List.mem_cons_of_mem _ hc)
      · have hval : splitScheme s = ([], s) := by
          unfold splitScheme
          rw [hsf]
          show (if isAsciiAlpha c0 ∧ (c0 :: rest).all isSchemeChar
            then (pyLower (c0 :: rest), after) else ([], s)) = ([], s)
          rw [if_neg hcond]
        rw [hval]
        exact fun c hc => hc

theorem netlocSplit_append (L rest : PyStr) (hL : ∀ c ∈ L, isNetlocDelim c = false)
    (hrest : rest = [] ∨ ∀ y, rest.head? = some y → isNetlocDelim y = true) :
    netlocSplit ('/' :: '/' :: (L ++ rest)) = (L, rest) := by
  unfold netlocSplit
  rw [if_pos (show List.take 2 ('/' :: '/' :: (L ++ rest)) = ['/', '/'] from rfl)]
  show splitNetloc (L ++ rest) = (L, rest)
  unfold splitNetloc
  obtain ⟨h1, h2⟩ := @takeWhile_append_exact (fun c => ¬ isNetlocDelim c) L rest
    (fun x hx => by simp [hL x hx])
    (by
      rcases hrest with h | h
      · exact Or.inl h
      · exact Or.inr (fun y hy => by simp [h y hy]))
  rw [h1, h2]

theorem fragSplit_append {a : PyStr} (b : PyStr) (ha : '#' ∉ a) :
    fragSplit (a ++ '#' :: b) = (a, b) := by
  unfold fragSplit
  rw [splitFirst_append b ha]

theorem fragSplit_of_not_mem {a : PyStr} (ha : '#' ∉ a) : fragSplit a = (a, []) := by
  unfold fragSplit
  rw [splitFirst_not_mem ha]

theorem querySplit_append {a : PyStr} (b : PyStr) (ha : '?' ∉ a) :
    querySplit (a ++ '?' :: b) = (a, b) := by
  unfold querySplit
  rw [splitFirst_append b ha]

theorem querySplit_of_not_mem {a : PyStr} (ha : '?' ∉ a) : querySplit a = (a, []) := by
  unfold querySplit
  rw [splitFirst_not_mem ha]

theorem path_shape_aux (rest2 : PyStr)
    (hd : rest2 = [] ∨ ∀ y, rest2.head? = some y → isNetlocDelim y = true) :
    (querySplit (fragSplit rest2).1).1 = [] ∨
      ∃ t, (querySplit (fragSplit rest2).1).1 = '/' :: t := by
  rcases hd with h | h
  · subst h
    exact Or.inl rfl
  · cases rest2 with
    | nil => exact Or.inl rfl
    | cons y t =>
      have hy := h y rfl
      simp only [isNetlocDelim, Bool.or_eq_true, decide_eq_true_eq] at hy
      rcases hy with (hy | hy) | hy
      · have hyc : y = '/' := char_toNat_inj (by rw [hy]; rfl)
        subst hyc
        rcases hsf : splitFirst '#' t with ⟨l, o⟩
        have hsf2 : splitFirst '#' ('/' :: t) = ('/' :: l, o) := by
          rw [splitFirst, if_neg (by decide : ¬('/' : Char) = '#')]
          show ('/' :: (splitFirst '#' t).1, (splitFirst '#' t).2) = ('/' :: l, o)
          rw [hsf]
        have hfs : (fragSplit ('/' :: t)).1 = '/' :: l := by
          unfold fragSplit
          rw [hsf2]
          cases o <;> rfl
        rw [hfs]
        rcases hsf3 : splitFirst '?' l with ⟨l2, o2⟩
        have hsf4 : splitFirst '?' ('/' :: l) = ('/' :: l2, o2) := by
          rw [splitFirst, if_neg (by decide : ¬('/' : Char) = '?')]
          show ('/' :: (splitFirst '?' l).1, (splitFirst '?' l).2) = ('/' :: l2, o2)
          rw [hsf3]
        have hqs : (querySplit ('/' :: l)).1 = '/' :: l2 := by
          unfold querySplit
          rw [hsf4]
          cases o2 <;> rfl
        rw [hqs]
        exact Or.inr ⟨l2, rfl⟩
      · have hyc : y = '?' := char_toNat_inj (by rw [hy]; rfl)
        subst hyc
        rcases hsf : splitFirst '#' t with ⟨l, o⟩
        have hsf2 : splitFirst '#' ('?' :: t) = ('?' :: l, o) := by
          rw [splitFirst, if_neg (by decide : ¬('?' : Char) = '#')]
          show ('?' :: (splitFirst '#' t).1, (splitFirst '#' t).2) = ('?' :: l, o)
          rw [hsf]
        have hfs : (fragSplit ('?' :: t)).1 = '?' :: l := by
          unfold fragSplit
          rw [hsf2]
          cases o <;> rfl
        rw [hfs]
        have hqs : (querySplit ('?' :: l)).1 = [] := by
          unfold querySplit
          rw [show splitFirst '?' ('?' :: l) = ([], some l) from by
            rw [splitFirst, if_pos rfl]]
        rw [hqs]
        exact Or.inl rfl
      · have hyc : y = '#' := char_toNat_inj (by rw [hy]; rfl)
        subst hyc
        have hfs : (fragSplit ('#' :: t)).1 = [] := by
          unfold fragSplit
          rw [show splitFirst '#' ('#' :: t) = ([], some t) from by
            rw [splitFirst, if_pos rfl]]
        rw [hfs]
        exact Or.inl rfl

theorem urlsplit_ok_facts {u : PyStr} {r : SplitRes} (h : urlsplit u = .ok r) :
    (∀ c ∈ r.netloc, isNetlocDelim c = false) ∧
    bracketBad r.netloc = false ∧
    '#' ∉ r.path ∧ '?' ∉ r.path ∧ '#' ∉ r.query ∧
    (r.netloc ≠ [] → r.path = [] ∨ ∃ t, r.path = '/' :: t) ∧
    noUnsafe r.netloc ∧ noUnsafe r.path ∧ noUnsafe r.query ∧ noUnsafe r.fragment := by
  obtain ⟨rs, rn, rp, rq, rf⟩ := r
  rcases hp1 : splitScheme (removeUnsafe (lstripC0 u)) with ⟨sch, rest1⟩
  rcases hp2 : netlocSplit rest1 with ⟨L, rest2⟩
  rcases hp3 : fragSplit rest2 with ⟨rest3, f0⟩
  rcases hp4 : querySplit rest3 with ⟨P0, q0⟩
  simp only [urlsplit, hp1, hp2, hp3, hp4] at h
  by_cases hbr : bracketBad L = true
  · rw [if_pos hbr] at h
    cases h
  · rw [if_neg hbr] at h
    injection h with h2
    injection h2 with e1 e2 e3 e4 e5
    subst e1
    subst e2
    subst e3
    subst e4
    subst e5
    have hbrf : bracketBad L = false := by simpa using hbr
    -- netloc analysis
    have hpack : (∀ c ∈ L, isNetlocDelim c = false) ∧ (∀ c ∈ L, c ∈ rest1) ∧
        (∀ c ∈ rest2, c ∈ rest1) ∧
        (L ≠ [] → rest2 = [] ∨ ∀ y, rest2.head? = some y → isNetlocDelim y = true) := by
      unfold netlocSplit at hp2
      by_cases htake : rest1.take 2 = ['/', '/']
      · rw [if_pos htake] at hp2
        unfold splitNetloc at hp2
        injection hp2 with hL hrest2
        refine ⟨?_, ?_, ?_, ?_⟩
        · intro c hc
          rw [← hL] at hc
          have := mem_takeWhile hc
          simpa using this
        · intro c hc
          rw [← hL] at hc
          exact List.drop_subset _ _ (mem_takeWhile_mem hc)
        · intro c hc
          rw [← hrest2] at hc
          exact List.drop_subset _ _ (mem_dropWhile hc)
        · intro _
          cases hr2 : rest2 with
          | nil => exact Or.inl rfl
          | cons y t =>
            refine Or.inr ?_
            intro z hz
            injection hz with hz
            subst hz
            have : (List.dropWhile (fun c => ¬ isNetlocDelim c) (rest1.drop 2)).head?
                = some y := by
              rw [hrest2, hr2]
              rfl
            have := head_dropWhile this
            simpa using this
      · rw [if_neg htake] at hp2
        injection hp2 with hL hrest2
        refine ⟨?_, ?_, ?_, ?_⟩
        · intro c hc
          rw [← hL] at hc
          cases hc
        · intro c hc
          rw [← hL] at hc
          cases hc
        · intro c hc
          rw [← hrest2] at hc
          exact hc
        · intro hne
          exact absurd hL.symm hne
    -- path shape (needs hp3/hp4 intact)
    have h6 : L ≠ [] → P0 = [] ∨ ∃ t, P0 = '/' :: t := by
      intro hne
      have hps := path_shape_aux rest2 (hpack.2.2.2 hne)
      simp only [hp3, hp4] at hps
      exact hps
    -- fragment split analysis
    have hfrag : '#' ∉ rest3 ∧ (∀ c ∈ rest3, c ∈ rest2) ∧ (∀ c ∈ f0, c ∈ rest2) := by
      rcases hsf3 : splitFirst '#' rest2 with ⟨l3, o3⟩
      unfold fragSplit at hp3
      rw [hsf3] at hp3
      cases o3 with
      | some r3 =>
        have hp3' : (l3, r3) = (rest3, f0) := hp3
        injection hp3' with ha hb
        subst ha
        subst hb
        obtain ⟨hr2eq, hnl3⟩ := splitFirst_eq_some hsf3
        refine ⟨hnl3, ?_, ?_⟩
        · intro c hc
          rw [hr2eq]
          exact List.mem_append_left _ hc
        · intro c hc
          rw [hr2eq]
          exact List.mem_append_right _ (List.mem_cons_of_mem _ hc)
      | none =>
        have hp3' : (l3, ([] : PyStr)) = (rest3, f0) := hp3
        injection hp3' with ha hb
        subst ha
        subst hb
        obtain ⟨hl3, hnmem⟩ := splitFirst_eq_none hsf3
        subst hl3
        exact ⟨hnmem, fun c hc => hc, fun c hc => by cases hc⟩
    -- query split analysis
    have hquery : '?' ∉ P0 ∧ (∀ c ∈ P0, c ∈ rest3) ∧ (∀ c ∈ q0, c ∈ rest3) := by
      rcases hsf4 : splitFirst '?' rest3 with ⟨l4, o4⟩
      unfold querySplit at hp4
      rw [hsf4] at hp4
      cases o4 with
      | some r4 =>
        have hp4' : (l4, r4) = (P0, q0) := hp4
        injection hp4' with ha hb
        subst ha
        subst hb
        obtain ⟨hr3eq, hnl4⟩ := splitFirst_eq_some hsf4
        refine ⟨hnl4, ?_, ?_⟩
        · intro c hc
          rw [hr3eq]
          exact List.mem_append_left _ hc
        · intro c hc
          rw [hr3eq]
          exact List.mem_append_right _ (List.mem_cons_of_mem _ hc)
      | none =>
        have hp4' : (l4, ([] : PyStr)) = (P0, q0) := hp4
        injection hp4' with ha hb
        subst ha
        subst hb
        obtain ⟨hl4, hnmem⟩ := splitFirst_eq_none hsf4
        subst hl4
        exact ⟨hnmem, fun c hc => hc, fun c hc => by cases hc⟩
    -- unsafe-character freedom
    have hns1 : noUnsafe (removeUnsafe (lstripC0 u)) := noUnsafe_removeUnsafe _
    have hnr1 : noUnsafe rest1 :=
      noUnsafe_sub (fun c hc => splitScheme_snd_sub _ c (by rw [hp1]; exact hc)) hns1
    have hnL : noUnsafe L := noUnsafe_sub hpack.2.1 hnr1
    have hnr2 : noUnsafe rest2 := noUnsafe_sub hpack.2.2.1 hnr1
    have hnr3 : noUnsafe rest3 := noUnsafe_sub hfrag.2.1 hnr2
    have hnP0 : noUnsafe P0 := noUnsafe_sub hquery.2.1 hnr3
    have hnq0 : noUnsafe q0 := noUnsafe_sub hquery.2.2 hnr3
    have hnf0 : noUnsafe f0 := noUnsafe_sub hfrag.2.2 hnr2
    refine ⟨hpack.1, hbrf, ?_, hquery.1, ?_, h6, hnL, hnP0, hnq0, hnf0⟩
    · intro hmem
      exact hfrag.1 (hquery.2.1 _ hmem)
    · intro hmem
      exact hfrag.1 (hquery.2.2 _ hmem)

theorem accepted_unfold {sch : PyStr} (h : sch ∈ ACCEPTED_SCHEMES) :
    sch = ['h', 't', 't', 'p'] ∨ sch = ['h', 't', 't', 'p', 's'] ∨
    sch = ['f', 't', 'p'] ∨ sch = ['f', 't', 'p', 's'] := by
  simp only [ACCEPTED_SCHEMES, List.mem_cons, List.not_mem_nil, or_false] at h
  rcases h with h | h | h | h
  · exact Or.inl h
  · exact Or.inr (Or.inl h)
  · exact Or.inr (Or.inr (Or.inl h))
  · exact Or.inr (Or.inr (Or.inr h))

theorem splitScheme_accepted {sch : PyStr} (h : sch ∈ ACCEPTED_SCHEMES) (T : PyStr) :
    splitScheme (sch ++ ':' :: T) = (sch, T) := by
  rcases accepted_unfold h with h4 | h4 | h4 | h4 <;> subst h4 <;> rfl

theorem matchesSchemeRe_accepted {sch : PyStr} (h : sch ∈ ACCEPTED_SCHEMES) (T : PyStr) :
    matchesSchemeRe (sch ++ ':' :: '/' :: '/' :: T) = true := by
  rcases accepted_unfold h with h4 | h4 | h4 | h4 <;> subst h4 <;> rfl

theorem lstripC0_accepted {sch : PyStr} (h : sch ∈ ACCEPTED_SCHEMES) (T : PyStr) :
    lstripC0 (sch ++ T) = sch ++ T := by
  rcases accepted_unfold h with h4 | h4 | h4 | h4 <;> subst h4 <;> rfl

theorem noUnsafe_accepted {sch : PyStr} (h : sch ∈ ACCEPTED_SCHEMES) : noUnsafe sch := by
  rcases accepted_unfold h with h4 | h4 | h4 | h4 <;> subst h4 <;> unfold noUnsafe <;> decide

theorem accepted_ne_nil {sch : PyStr} (h : sch ∈ ACCEPTED_SCHEMES) : sch ≠ [] := by
  rcases accepted_unfold h with h4 | h4 | h4 | h4 <;> subst h4 <;> decide

theorem prepSlash_head_cases (pp : PyStr) :
    prepSlash pp = [] ∨ (prepSlash pp).head? = some '/' := by
  unfold prepSlash
  split
  · exact Or.inr rfl
  · next h =>
    rcases not_and_or.mp h with h1 | h1
    · exact Or.inl (not_not.mp h1)
    · exact Or.inr (not_not.mp h1)

theorem tail_head_delim (pp q f : PyStr) :
    prepSlash pp ++ (qPart q ++ fPart f) = [] ∨
    ∀ y, (prepSlash pp ++ (qPart q ++ fPart f)).head? = some y → isNetlocDelim y = true := by
  rcases prepSlash_head_cases pp with h | h
  · rw [h, List.nil_append]
    by_cases hq : q = []
    · rw [qPart, if_pos hq, List.nil_append]
      by_cases hf : f = []
      · rw [fPart, if_pos hf]
        exact Or.inl rfl
      · rw [fPart, if_neg hf]
        refine Or.inr ?_
        intro y hy
        injection hy with hy
        subst hy
        decide
    · rw [qPart, if_neg hq]
      refine Or.inr ?_
      intro y hy
      rw [List.cons_append] at hy
      injection hy with hy
      subst hy
      decide
  · refine Or.inr ?_
    intro y hy
    cases hpp : prepSlash pp with
    | nil =>
      rw [hpp] at h
      cases h
    | cons c t =>
      rw [hpp] at h hy
      injection h with h
      rw [List.cons_append] at hy
      injection hy with hy
      subst hy
      rw [h]
      decide

theorem not_mem_prepSlash {c : Char} (hc : ¬ c = '/') {l : PyStr} (h : c ∉ l) :
    c ∉ prepSlash l := by
  unfold prepSlash
  split
  · intro hmem
    rcases List.mem_cons.mp hmem with h2 | h2
    · exact hc h2
    · exact h h2
  · exact h

theorem not_mem_withParams {c : Char} (hc : ¬ c = ';') {P par : PyStr}
    (h1 : c ∉ P) (h2 : c ∉ par) : c ∉ withParams P par := by
  unfold withParams
  split
  · exact h1
  · intro hmem
    rcases List.mem_append.mp hmem with h3 | h3
    · exact h1 h3
    · rcases List.mem_cons.mp h3 with h4 | h4
      · exact hc h4
      · exact h2 h4

theorem not_mem_qPart {c : Char} (hc : ¬ c = '?') {q : PyStr} (h : c ∉ q) :
    c ∉ qPart q := by
  unfold qPart
  split
  · exact (List.not_mem_nil c)
  · intro hmem
    rcases List.mem_cons.mp hmem with h2 | h2
    · exact hc h2
    · exact h h2

theorem fragSplit_tail (A f : PyStr) (hA : '#' ∉ A) :
    fragSplit (A ++ fPart f) = (A, f) := by
  by_cases hf : f = []
  · subst hf
    rw [fPart, if_pos rfl, List.append_nil]
    exact fragSplit_of_not_mem hA
  · rw [fPart, if_neg hf]
    exact fragSplit_append f hA

theorem querySplit_tail (B q : PyStr) (hB : '?' ∉ B) :
    querySplit (B ++ qPart q) = (B, q) := by
  by_cases hq : q = []
  · subst hq
    rw [qPart, if_pos rfl, List.append_nil]
    exact querySplit_of_not_mem hB
  · rw [qPart, if_neg hq]
    exact querySplit_append q hB

theorem collapseRootPath_cases (p : PyStr) :
    collapseRootPath p = [] ∨ collapseRootPath p = p := by
  unfold collapseRootPath
  split
  · exact Or.inl rfl
  · exact Or.inr rfl

theorem collapseRootPath_idem (p : PyStr) :
    collapseRootPath (collapseRootPath p) = collapseRootPath p := by
  unfold collapseRootPath
  split
  · rw [if_neg (by decide)]
  · rfl

theorem collapseRootPath_sub (p : PyStr) : ∀ c ∈ collapseRootPath p, c ∈ p := by
  unfold collapseRootPath
  split
  · intro c hc
    cases hc
  · exact fun c hc => hc

theorem bracketBad_pyLower (nl : PyStr) : bracketBad (pyLower nl) = bracketBad nl := by
  have h1 : '[' ∈ pyLower nl ↔ '[' ∈ nl := mem_pyLower_iff (by decide) (by decide) nl
  have h2 : ']' ∈ pyLower nl ↔ ']' ∈ nl := mem_pyLower_iff (by decide) (by decide) nl
  unfold bracketBad
  rw [decide_eq_decide]
  rw [h1, h2]

theorem noUnsafe_nil : noUnsafe [] := by
  intro c hc
  cases hc

theorem noUnsafe_prepSlash {l : PyStr} (h : noUnsafe l) : noUnsafe (prepSlash l) := by
  unfold prepSlash
  split
  · exact noUnsafe_cons (by decide) h
  · exact h

theorem noUnsafe_withParams {P par : PyStr} (h1 : noUnsafe P) (h2 : noUnsafe par) :
    noUnsafe (withParams P par) := by
  unfold withParams
  split
  · exact h1
  · exact noUnsafe_append h1 (noUnsafe_cons (by decide) h2)

theorem noUnsafe_qPart {q : PyStr} (h : noUnsafe q) : noUnsafe (qPart q) := by
  unfold qPart
  split
  · exact noUnsafe_nil
  · exact noUnsafe_cons (by decide) h

theorem noUnsafe_fPart {f : PyStr} (h : noUnsafe f) : noUnsafe (fPart f) := by
  unfold fPart
  split
  · exact noUnsafe_nil
  · exact noUnsafe_cons (by decide) h

theorem urlunparse_netloc_eq (sch L P par q f : PyStr) (hL : L ≠ []) (hsch : sch ≠ []) :
    urlunparse ⟨sch, L, P, par, q, f⟩ =
      sch ++ ':' :: '/' :: '/' ::
        (L ++ (prepSlash (withParams P par) ++ (qPart q ++ fPart f))) := by
  simp only [urlunparse]
  rw [if_pos (Or.inl hL), if_neg hsch]
  simp [List.append_assoc]

theorem urlsplit_reassembled (sch L P par q f : PyStr)
    (hsch : sch ∈ ACCEPTED_SCHEMES)
    (hLdelim : ∀ c ∈ L, isNetlocDelim c = false)
    (hbr : bracketBad L = false)
    (hnoU : noUnsafe (sch ++ ':' :: '/' :: '/' ::
      (L ++ (prepSlash (withParams P par) ++ (qPart q ++ fPart f)))))
    (hhashP : '#' ∉ withParams P par) (hhashQ : '#' ∉ q)
    (hqP : '?' ∉ withParams P par) :
    urlsplit (sch ++ ':' :: '/' :: '/' ::
        (L ++ (prepSlash (withParams P par) ++ (qPart q ++ fPart f)))) =
      .ok ⟨sch, L, prepSlash (withParams P par), q, f⟩ := by
  have h1 : lstripC0 (sch ++ ':' :: '/' :: '/' ::
      (L ++ (prepSlash (withParams P par) ++ (qPart q ++ fPart f)))) =
      sch ++ ':' :: '/' :: '/' ::
      (L ++ (prepSlash (withParams P par) ++ (qPart q ++ fPart f))) :=
    lstripC0_accepted hsch _
  have h2 : removeUnsafe (sch ++ ':' :: '/' :: '/' ::
      (L ++ (prepSlash (withParams P par) ++ (qPart q ++ fPart f)))) =
      sch ++ ':' :: '/' :: '/' ::
      (L ++ (prepSlash (withParams P par) ++ (qPart q ++ fPart f))) :=
    removeUnsafe_eq_self hnoU
  have h3 : splitScheme (sch ++ ':' :: '/' :: '/' ::
      (L ++ (prepSlash (withParams P par) ++ (qPart q ++ fPart f)))) =
      (sch, '/' :: '/' :: (L ++ (prepSlash (withParams P par) ++ (qPart q ++ fPart f)))) :=
    splitScheme_accepted hsch _
  have h4 : netlocSplit ('/' :: '/' ::
      (L ++ (prepSlash (withParams P par) ++ (qPart q ++ fPart f)))) =
      (L, prepSlash (withParams P par) ++ (qPart q ++ fPart f)) :=
    netlocSplit_append _ _ hLdelim (tail_head_delim (withParams P par) q f)
  have h5 : fragSplit (prepSlash (withParams P par) ++ (qPart q ++ fPart f)) =
      (prepSlash (withParams P par) ++ qPart q, f) := by
    rw [← List.append_assoc]
    refine fragSplit_tail _ f ?_
    intro hmem
    rcases List.mem_append.mp hmem with h | h
    · exact not_mem_prepSlash (by decide) hhashP h
    · exact not_mem_qPart (by decide) hhashQ h
  have h6 : querySplit (prepSlash (withParams P par) ++ qPart q) =
      (prepSlash (withParams P par), q) :=
    querySplit_tail _ q (not_mem_prepSlash (by decide) hqP)
  simp only [urlsplit, h1, h2, h3, h4, h5, h6]
  rw [if_neg (by simp [hbr])]

/-- C2: the idempotence claim as amended. `_normalize_url` is idempotent on
every successful output that carries no surrounding whitespace: if
`_normalize_url u = ok n` and `n` is strip-fixed (`pyStrip n = n`), then
`_normalize_url n = ok n`.  The strip-fixedness hypothesis is necessary: the
unamended claim fails on `"http://a.com ?"` (see the counterexample), whose
normal form ends in a space that a second normalization strips away. -/
theorem C2_normalize_idempotent (u n : PyStr)
    (h : _normalize_url u = .ok n) (hclean : pyStrip n = n) :
    _normalize_url n = .ok n := by
  by_cases h0 : pyStrip u = []
  · simp [_normalize_url, h0] at h
  · rcases hup : pyUrlparse (ensureScheme (pyStrip u)) with e | p
    · simp [_normalize_url, h0, hup] at h
    · by_cases hs : p.scheme ∈ ACCEPTED_SCHEMES
      · by_cases hn0 : p.netloc = []
        · simp [_normalize_url, h0, hup, hs, hn0] at h
        · simp [_normalize_url, h0, hup, hs, hn0] at h
          rcases hus : urlsplit (ensureScheme (pyStrip u)) with e2 | r
          · simp [pyUrlparse, hus] at hup
          · simp only [pyUrlparse, hus, Except.ok.injEq] at hup
            subst hup
            dsimp only at h hs hn0
            obtain ⟨hF1, hF2, hF3, hF4, hF5, hF6, hFn, hFp, hFq, hFf⟩ :=
              urlsplit_ok_facts hus
            -- facts about the split path
            have hshape0 : r.path = [] ∨ ∃ t, r.path = '/' :: t := hF6 hn0
            obtain ⟨hsub1, hsub2, hparslash, hseg, hshape1⟩ :=
              splitparams_spec r.path hshape0
            have hPsub : ∀ c ∈ collapseRootPath (splitparams r.path).1, c ∈ r.path :=
              fun c hc => hsub1 c (collapseRootPath_sub _ c hc)
            -- facts about the lowered netloc
            have hLdelim : ∀ c ∈ pyLower r.netloc, isNetlocDelim c = false := by
              intro c hc
              rcases List.mem_map.mp hc with ⟨c0, hc0, hlc⟩
              rw [← hlc]
              exact pyLowerChar_not_delim (hF1 c0 hc0)
            have hbrL : bracketBad (pyLower r.netloc) = false :=
              (bracketBad_pyLower r.netloc).trans hF2
            have hLne : pyLower r.netloc ≠ [] := by
              intro hc
              apply hn0
              cases hnl : r.netloc with
              | nil => rfl
              | cons a t => simp [pyLower, hnl] at hc
            -- hash and query-mark freedom of the reassembled path-with-params
            have hhashP : '#' ∉ withParams (collapseRootPath (splitparams r.path).1)
                (splitparams r.path).2 :=
              not_mem_withParams (by decide) (fun hm => hF3 (hPsub _ hm))
                (fun hm => hF3 (hsub2 _ hm))
            have hqPP : '?' ∉ withParams (collapseRootPath (splitparams r.path).1)
                (splitparams r.path).2 :=
              not_mem_withParams (by decide) (fun hm => hF4 (hPsub _ hm))
                (fun hm => hF4 (hsub2 _ hm))
            -- unsafe-character freedom of the reassembled URL
            have hnN : noUnsafe (r.scheme ++ ':' :: '/' :: '/' ::
                (pyLower r.netloc ++
                  (prepSlash (withParams (collapseRootPath (splitparams r.path).1)
                    (splitparams r.path).2) ++
                   (qPart r.query ++ fPart r.fragment)))) :=
              noUnsafe_append (noUnsafe_accepted hs)
                (noUnsafe_cons (by decide) (noUnsafe_cons (by decide)
                  (noUnsafe_cons (by decide)
                    (noUnsafe_append (noUnsafe_pyLower hFn)
                      (noUnsafe_append
                        (noUnsafe_prepSlash (noUnsafe_withParams
                          (noUnsafe_sub hPsub hFp) (noUnsafe_sub hsub2 hFp)))
                        (noUnsafe_append (noUnsafe_qPart hFq)
                          (noUnsafe_fPart hFf)))))))
            -- the reassembled shape of the first normalization's output
            have hv : n = r.scheme ++ ':' :: '/' :: '/' ::
                (pyLower r.netloc ++
                  (prepSlash (withParams (collapseRootPath (splitparams r.path).1)
                    (splitparams r.path).2) ++
                   (qPart r.query ++ fPart r.fragment))) := by
              rw [← h, urlunparse_netloc_eq _ _ _ _ _ _ hLne (accepted_ne_nil hs)]
            -- the second parse recovers the components exactly
            have hsplitn : urlsplit n = .ok ⟨r.scheme, pyLower r.netloc,
                prepSlash (withParams (collapseRootPath (splitparams r.path).1)
                  (splitparams r.path).2), r.query, r.fragment⟩ := by
              rw [hv]
              exact urlsplit_reassembled _ _ _ _ _ _ hs hLdelim hbrL hnN hhashP hF5 hqPP
            -- the params split of the reparsed path undoes the reassembly
            have hshapeP : collapseRootPath (splitparams r.path).1 = [] ∨
                ∃ t, collapseRootPath (splitparams r.path).1 = '/' :: t := by
              rcases collapseRootPath_cases (splitparams r.path).1 with hc | hc
              · exact Or.inl hc
              · rw [hc]
                exact hshape1
            have hsegP : SegOK (collapseRootPath (splitparams r.path).1) := by
              rcases collapseRootPath_cases (splitparams r.path).1 with hc | hc
              · exact Or.inl hc
              · rw [hc]
                exact hseg
            have hSPfacts : collapseRootPath (splitparams (prepSlash (withParams
                  (collapseRootPath (splitparams r.path).1)
                  (splitparams r.path).2))).1 =
                collapseRootPath (splitparams r.path).1 ∧
                (splitparams (prepSlash (withParams
                  (collapseRootPath (splitparams r.path).1)
                  (splitparams r.path).2))).2 = (splitparams r.path).2 := by
              obtain ⟨hre1, hre2⟩ := splitparams_reassemble
                (collapseRootPath (splitparams r.path).1) (splitparams r.path).2
                hshapeP hsegP hparslash
              by_cases hparnil : (splitparams r.path).2 = []
              · rw [hre1 hparnil]
                exact ⟨collapseRootPath_idem _, hparnil.symm⟩
              · rw [hre2 hparnil]
                refine ⟨?_, rfl⟩
                by_cases hPnil : collapseRootPath (splitparams r.path).1 = []
                · show collapseRootPath (if collapseRootPath (splitparams r.path).1 = []
                    then ['/'] else collapseRootPath (splitparams r.path).1) =
                    collapseRootPath (splitparams r.path).1
                  rw [if_pos hPnil, hPnil]
                  rfl
                · show collapseRootPath (if collapseRootPath (splitparams r.path).1 = []
                    then ['/'] else collapseRootPath (splitparams r.path).1) =
                    collapseRootPath (splitparams r.path).1
                  rw [if_neg hPnil]
                  exact collapseRootPath_idem _
            -- assemble the second normalization
            have hup2 : pyUrlparse n = .ok ⟨r.scheme, pyLower r.netloc,
                (splitparams (prepSlash (withParams
                  (collapseRootPath (splitparams r.path).1)
                  (splitparams r.path).2))).1,
                (splitparams (prepSlash (withParams
                  (collapseRootPath (splitparams r.path).1)
                  (splitparams r.path).2))).2, r.query, r.fragment⟩ := by
              simp only [pyUrlparse, hsplitn]
            have hmre : matchesSchemeRe n = true := by
              rw [hv]
              exact matchesSchemeRe_accepted hs _
            have hnne : n ≠ [] := by
              rw [hv]
              cases r.scheme <;> simp
            have hens : ensureScheme n = n := by
              unfold ensureScheme
              rw [if_pos hmre]
            have hfinal : _normalize_url n = .ok (urlunparse ⟨r.scheme,
                pyLower (pyLower r.netloc),
                collapseRootPath (splitparams (prepSlash (withParams
                  (collapseRootPath (splitparams r.path).1)
                  (splitparams r.path).2))).1,
                (splitparams (prepSlash (withParams
                  (collapseRootPath (splitparams r.path).1)
                  (splitparams r.path).2))).2, r.query, r.fragment⟩) := by
              simp [_normalize_url, hclean, hnne, hens, hup2, hs, hLne]
            rw [hfinal, pyLower_idem, hSPfacts.1, hSPfacts.2, h]
      · simp [_normalize_url, h0, hup, hs] at h

/-- C2 counterexample to the unamended claim: `"http://a.com ?"` normalizes
successfully to `"http://a.com "` (the C0-stripping of `urlsplit` keeps the
trailing space once the empty query is dropped), but normalizing that output
again yields `"http://a.com"`, a different string — so `_normalize_url` is
not idempotent on all successful outputs. -/
theorem C2_counterexample :
    _normalize_url "http://a.com ?".data = .ok "http://a.com ".data ∧
    _normalize_url "http://a.com ".data = .ok "http://a.com".data ∧
    ("http://a.com ".data : PyStr) ≠ "http://a.com".data :=
  ⟨by decide, by decide, by decide⟩

/-- Witness for C2 at a concrete input: `"example.com"` normalizes to
`"https://example.com"`, which is strip-fixed, and renormalizing returns it
unchanged. -/
theorem C2_normalize_idempotent_witness :
    _normalize_url "example.com".data = .ok "https://example.com".data ∧
    pyStrip "https://example.com".data = "https://example.com".data ∧
    _normalize_url "https://example.com".data = .ok "https://example.com".data :=
  ⟨by decide, by decide,
    C2_normalize_idempotent "example.com".data "https://example.com".data
      (by decide) (by decide)⟩
